import Mathlib

/-!
Verification of the extraction-and-deduplication pipeline of the
cursor-prompt-scraper repository (src/logger.py and src/mongo_client.py).

The embedding models:
- JSON values (`Json`) as parsed by Python's `json.loads` (objects keep
  Python-dict semantics: insertion order, duplicate keys replaced in place;
  numbers are modelled as integers only — no claim exercises floats, and the
  parser appears on both sides of every statement that quantifies over blobs);
- `CursorLogger.extract_json_objects` (balanced-brace scanner), the regex
  `findall` loop of `CursorLogger.request` for the pattern
  (?s)\x7b\s*"root"\s*:\s*\x7b.*?\x7d\s*\x7d, and
  `CursorLogger.extract_text_from_cursor_json` (recursive text harvester);
- `MongoDBClient`'s hashing (`_hash_data`, `_extract_text_hash`,
  `_json_objects_hash`), de-duplication (`check_duplicate`, `insert_request`),
  session markers, statistics (`get_session_stats`) and `_create_indexes`.
  Python's built-in `hash` is process-seeded, so it is carried as an explicit
  parameter `h : String → Int`; within one run it is a fixed pure function,
  which is exactly what the model's parametricity expresses.
  MongoDB state is a list of documents; operations that can raise in pymongo
  take an explicit failure flag and model the `try/except` fallbacks.
-/

/-! ## Characters and small utilities -/

def lbrace : Char := Char.ofNat 123

def rbrace : Char := Char.ofNat 125

/-- Whitespace accepted between JSON tokens by Python's `json` module
(exactly space, tab, newline, carriage return). -/
def isJsonWs (c : Char) : Bool :=
  c.toNat == 32 || c.toNat == 9 || c.toNat == 10 || c.toNat == 13

def skipJsonWs (cs : List Char) : List Char := cs.dropWhile isJsonWs

/-- Whitespace matched by `\s` in Python `re` on ASCII-range text, plus the
common extra code points (file/group/record/unit separators, NEL, NBSP).
Rarer Unicode space code points are not modelled; no claim exercises them. -/
def isPyWs (c : Char) : Bool :=
  c.toNat == 32 || c.toNat == 9 || c.toNat == 10 || c.toNat == 13 ||
  c.toNat == 11 || c.toNat == 12 || c.toNat == 28 || c.toNat == 29 ||
  c.toNat == 30 || c.toNat == 31 || c.toNat == 133 || c.toNat == 160

def isDigitChar (c : Char) : Bool := 48 ≤ c.toNat && c.toNat ≤ 57

/-! ## JSON values -/

/-- A parsed JSON tree, as produced by Python's `json.loads`: objects are
Python dicts rendered as association lists in insertion order; numbers are
restricted to integers (see the header note). -/
inductive Json where
  | null
  | bool (b : Bool)
  | num (n : Int)
  | str (s : String)
  | arr (xs : List Json)
  | obj (kvs : List (String × Json))

/-- Python-dict insertion: replacing an existing key keeps its position,
a new key is appended. -/
def dictInsert (kvs : List (String × Json)) (k : String) (v : Json) :
    List (String × Json) :=
  if kvs.any (fun p => p.1 == k) then
    kvs.map (fun p => if p.1 == k then (k, v) else p)
  else kvs ++ [(k, v)]

/-- Python-dict lookup (`node.get(k)`): the value stored at key `k`. -/
def dictGet (kvs : List (String × Json)) (k : String) : Option Json :=
  (kvs.find? (fun p => p.1 == k)).map Prod.snd

/-! ## A model of Python's json.loads -/

def hexVal (c : Char) : Option Nat :=
  if 48 ≤ c.toNat ∧ c.toNat ≤ 57 then some (c.toNat - 48)
  else if 97 ≤ c.toNat ∧ c.toNat ≤ 102 then some (c.toNat - 87)
  else if 65 ≤ c.toNat ∧ c.toNat ≤ 70 then some (c.toNat - 55)
  else none

/-- Matches a literal character sequence at the head of the input. -/
def stripLit : List Char → List Char → Option (List Char)
  | [], cs => some cs
  | l :: ls, c :: cs => if c = l then stripLit ls cs else none
  | _ :: _, [] => none

/-- Body of a JSON string after its opening quote, in strict mode: raw control
characters are rejected, the standard backslash escapes and `\uXXXX` are
decoded (surrogate escapes, not representable as scalar values, fail). -/
def parseStringBody : List Char → Option (List Char × List Char)
  | [] => none
  | c :: t =>
    if c = '"' then some ([], t)
    else if c = '\\' then
      match t with
      | [] => none
      | e :: t2 =>
        if e = '"' then (parseStringBody t2).map (fun p => ('"' :: p.1, p.2))
        else if e = '\\' then (parseStringBody t2).map (fun p => ('\\' :: p.1, p.2))
        else if e = '/' then (parseStringBody t2).map (fun p => ('/' :: p.1, p.2))
        else if e = 'b' then (parseStringBody t2).map (fun p => (Char.ofNat 8 :: p.1, p.2))
        else if e = 'f' then (parseStringBody t2).map (fun p => (Char.ofNat 12 :: p.1, p.2))
        else if e = 'n' then (parseStringBody t2).map (fun p => ('\n' :: p.1, p.2))
        else if e = 'r' then (parseStringBody t2).map (fun p => (Char.ofNat 13 :: p.1, p.2))
        else if e = 't' then (parseStringBody t2).map (fun p => ('\t' :: p.1, p.2))
        else if e = 'u' then
          match t2 with
          | h1 :: h2 :: h3 :: h4 :: t3 =>
            match hexVal h1, hexVal h2, hexVal h3, hexVal h4 with
            | some a, some b, some c2, some d =>
              let n := ((a * 16 + b) * 16 + c2) * 16 + d
              if 55296 ≤ n ∧ n ≤ 57343 then none
              else (parseStringBody t3).map (fun p => (Char.ofNat n :: p.1, p.2))
            | _, _, _, _ => none
          | _ => none
        else none
    else if c.toNat < 32 then none
    else (parseStringBody t).map (fun p => (c :: p.1, p.2))

def digitsToNat (ds : List Char) : Nat :=
  ds.foldl (fun a c => a * 10 + (c.toNat - 48)) 0

/-- Unsigned integer literal per the JSON grammar (`0` or a nonzero digit
followed by digits). -/
def parseUIntLit : List Char → Option (Nat × List Char)
  | [] => none
  | c :: t =>
    if c.toNat = 48 then some (0, t)
    else if isDigitChar c then
      some (digitsToNat (c :: t.takeWhile isDigitChar), t.dropWhile isDigitChar)
    else none

/-- Number token. A following `.`, `e` or `E` would make Python parse a float
(or fail); floats are outside this model, so such inputs are rejected. -/
def parseNum (cs : List Char) : Option (Json × List Char) :=
  let intPart : Option (Int × List Char) :=
    match cs with
    | '-' :: t => (parseUIntLit t).map (fun p => (-(p.1 : Int), p.2))
    | _ => (parseUIntLit cs).map (fun p => ((p.1 : Int), p.2))
  match intPart with
  | none => none
  | some (n, r) =>
    match r with
    | c :: _ =>
      if c = '.' ∨ c = 'e' ∨ c = 'E' then none else some (Json.num n, r)
    | [] => some (Json.num n, [])

mutual

/-- Recursive-descent value parser; the fuel only bounds recursion depth and is
always instantiated large enough (see `jsonLoads`). -/
def parseVal : Nat → List Char → Option (Json × List Char)
  | 0, _ => none
  | fuel + 1, cs =>
    match cs with
    | [] => none
    | c :: t =>
      if c = lbrace then parseObjRest fuel (skipJsonWs t)
      else if c = '[' then parseArrRest fuel (skipJsonWs t)
      else if c = '"' then
        (parseStringBody t).map (fun p => (Json.str (String.mk p.1), p.2))
      else if c = 't' then
        (stripLit ['r', 'u', 'e'] t).map (fun r => (Json.bool true, r))
      else if c = 'f' then
        (stripLit ['a', 'l', 's', 'e'] t).map (fun r => (Json.bool false, r))
      else if c = 'n' then
        (stripLit ['u', 'l', 'l'] t).map (fun r => (Json.null, r))
      else parseNum cs

/-- Object body after the opening brace and whitespace. -/
def parseObjRest : Nat → List Char → Option (Json × List Char)
  | 0, _ => none
  | fuel + 1, cs =>
    match cs with
    | [] => none
    | c :: t =>
      if c = rbrace then some (Json.obj [], t)
      else parseOneMember fuel [] (c :: t)

/-- One `"key": value` member, starting at the expected key quote. -/
def parseOneMember : Nat → List (String × Json) → List Char →
    Option (Json × List Char)
  | 0, _, _ => none
  | fuel + 1, acc, cs =>
    match cs with
    | [] => none
    | c :: t =>
      if c = '"' then
        match parseStringBody t with
        | none => none
        | some (k, r1) =>
          match skipJsonWs r1 with
          | [] => none
          | d :: r2 =>
            if d = ':' then
              match parseVal fuel (skipJsonWs r2) with
              | none => none
              | some (v, r3) =>
                parseMembersLoop fuel (dictInsert acc (String.mk k) v)
                  (skipJsonWs r3)
            else none
      else none

/-- After a parsed member: either a comma and another member, or the close. -/
def parseMembersLoop : Nat → List (String × Json) → List Char →
    Option (Json × List Char)
  | 0, _, _ => none
  | fuel + 1, acc, cs =>
    match cs with
    | [] => none
    | c :: t =>
      if c = rbrace then some (Json.obj acc, t)
      else if c = ',' then parseOneMember fuel acc (skipJsonWs t)
      else none

/-- Array body after the opening bracket and whitespace. -/
def parseArrRest : Nat → List Char → Option (Json × List Char)
  | 0, _ => none
  | fuel + 1, cs =>
    match cs with
    | [] => none
    | c :: t =>
      if c = ']' then some (Json.arr [], t)
      else parseElems fuel [] (c :: t)

/-- Array elements, starting at a value position. -/
def parseElems : Nat → List Json → List Char → Option (Json × List Char)
  | 0, _, _ => none
  | fuel + 1, acc, cs =>
    match parseVal fuel cs with
    | none => none
    | some (v, r) =>
      match skipJsonWs r with
      | [] => none
      | c :: t =>
        if c = ',' then parseElems fuel (acc ++ [v]) (skipJsonWs t)
        else if c = ']' then some (Json.arr (acc ++ [v]), t)
        else none

end

/-- Model of `json.loads`: parse one value, allow surrounding whitespace,
require the whole input to be consumed. Total: invalid input yields `none`
(Python's `json.JSONDecodeError`, caught by every caller in the source). -/
def jsonLoads (cs : List Char) : Option Json :=
  match parseVal (2 * cs.length + 4) (skipJsonWs cs) with
  | some (v, rest) => if skipJsonWs rest = [] then some v else none
  | none => none

/-! ## CursorLogger.extract_text_from_cursor_json (TextHarvester) -/

mutual

/-- Model of `CursorLogger.extract_text_from_cursor_json`'s inner `recurse`:
a dict node carrying `type == "text"` and a `text` key contributes its `text`
value, then traversal continues into every value / element, depth-first. -/
def extract_text_from_cursor_json : Json → List Json
  | .obj kvs =>
    (match dictGet kvs "type", dictGet kvs "text" with
     | some (.str t), some tv => if t == "text" then [tv] else []
     | _, _ => []) ++ harvestKVs kvs
  | .arr xs => harvestList xs
  | _ => []

def harvestKVs : List (String × Json) → List Json
  | [] => []
  | p :: ps => extract_text_from_cursor_json p.2 ++ harvestKVs ps

def harvestList : List Json → List Json
  | [] => []
  | x :: xs => extract_text_from_cursor_json x ++ harvestList xs

end

mutual

/-- All nodes of a JSON tree in depth-first preorder (the traversal order of
the harvester's `recurse`). -/
def subnodes : Json → List Json
  | .obj kvs => .obj kvs :: subnodesKVs kvs
  | .arr xs => .arr xs :: subnodesList xs
  | j => [j]

def subnodesKVs : List (String × Json) → List Json
  | [] => []
  | p :: ps => subnodes p.2 ++ subnodesKVs ps

def subnodesList : List Json → List Json
  | [] => []
  | x :: xs => subnodes x ++ subnodesList xs

end

/-- A mapping node that the harvester recognises: `type` maps to the string
`"text"` and a `text` key is present. -/
def isTextNode : Json → Bool
  | .obj kvs =>
    (match dictGet kvs "type", dictGet kvs "text" with
     | some (.str t), some _ => t == "text"
     | _, _ => false)
  | _ => false

/-- The `text` value of a mapping node, if any. -/
def textField : Json → Option Json
  | .obj kvs => dictGet kvs "text"
  | _ => none

/-! ## The regex findall loop of CursorLogger.request (FragmentExtractor) -/

def litRoot : List Char := '"' :: 'r' :: 'o' :: 'o' :: 't' :: '"' :: []

/-- Match of the regex head at the start of the input: an opening brace,
optional whitespace, the literal `"root"`, optional whitespace, a colon,
optional whitespace and a second opening brace. Each `\s*` is forced because
the following literal is never whitespace. Returns (consumed, rest). -/
def matchRootOpen (cs : List Char) : Option (List Char × List Char) :=
  match cs with
  | [] => none
  | c :: t =>
    if c = lbrace then
      let w1 := t.takeWhile isPyWs
      let r1 := t.dropWhile isPyWs
      match stripLit litRoot r1 with
      | none => none
      | some r2 =>
        let w2 := r2.takeWhile isPyWs
        let r3 := r2.dropWhile isPyWs
        match r3 with
        | [] => none
        | d :: r4 =>
          if d = ':' then
            let w3 := r4.takeWhile isPyWs
            let r5 := r4.dropWhile isPyWs
            match r5 with
            | [] => none
            | e :: r6 =>
              if e = lbrace then
                some (c :: (w1 ++ litRoot ++ w2 ++ [d] ++ w3 ++ [e]), r6)
              else none
          else none
    else none

/-- The lazy tail `.*?\}\s*\}`: the match ends at the earliest closing brace
that is followed (after a whitespace run) by another closing brace. The
whitespace run is forced since `\s*` is followed by a non-whitespace literal.
Returns (consumed including both braces, rest). -/
def lazyClose : List Char → Option (List Char × List Char)
  | [] => none
  | c :: t =>
    if c = rbrace then
      match t.dropWhile isPyWs with
      | d :: t3 =>
        if d = rbrace then some (c :: (t.takeWhile isPyWs ++ [d]), t3)
        else (lazyClose t).map (fun p => (c :: p.1, p.2))
      | [] => (lazyClose t).map (fun p => (c :: p.1, p.2))
    else (lazyClose t).map (fun p => (c :: p.1, p.2))

/-- One attempted match of the full pattern anchored at the start of `cs`. -/
def matchRootAt (cs : List Char) : Option (List Char × List Char) :=
  match matchRootOpen cs with
  | none => none
  | some (pre, r) => (lazyClose r).map (fun p => (pre ++ p.1, p.2))

/-- Model of `re.findall` for this pattern: scan left to right, emit each
non-overlapping match and resume after its end, else advance one character.
Fuel-indexed (the wrapper below always supplies enough fuel; a match consumes
at least one character). -/
def pyFindallRootGo : Nat → List Char → List (List Char)
  | 0, _ => []
  | fuel + 1, cs =>
    Option.elim (matchRootAt cs)
      (List.casesOn cs [] (fun _ t => pyFindallRootGo fuel t))
      (fun p => p.1 :: pyFindallRootGo fuel p.2)

def pyFindallRoot (cs : List Char) : List (List Char) :=
  pyFindallRootGo (cs.length + 1) cs

/-- The extraction loop of `CursorLogger.request`: iterate over the regex
matches, `json.loads` each candidate, keep the successes in order, never
raise. -/
def extractLoopAux : List (List Char) → List Json → List Json
  | [], acc => acc
  | m :: ms, acc =>
    match jsonLoads m with
    | some o => extractLoopAux ms (acc ++ [o])
    | none => extractLoopAux ms acc

/-- The `json_objects` list computed by `CursorLogger.request` from the
decoded request body. -/
def requestExtractJson (cs : List Char) : List Json :=
  extractLoopAux (pyFindallRoot cs) []

/-- Declarative shape of the fragment pattern
(?s)\x7b\s*"root"\s*:\s*\x7b.*?\x7d\s*\x7d: what it means for a substring to
be an instance of the pattern, independent of the matcher above. -/
def RootShape (m : List Char) : Prop :=
  ∃ w1 w2 w3 mid wc,
    (∀ c ∈ w1, isPyWs c = true) ∧ (∀ c ∈ w2, isPyWs c = true) ∧
    (∀ c ∈ w3, isPyWs c = true) ∧ (∀ c ∈ wc, isPyWs c = true) ∧
    m = lbrace :: (w1 ++ litRoot ++ w2 ++ [':'] ++ w3 ++ [lbrace]) ++
        mid ++ [rbrace] ++ wc ++ [rbrace]

/-- Interleaving of gap segments and match segments: `glueGaps [g0, .., gk]
[m1, .., mk]` is `g0 ++ m1 ++ g1 ++ .. ++ mk ++ gk`. Used to state that the
matches occur disjointly, left to right, inside the scanned text. -/
def glueGaps : List (List Char) → List (List Char) → List Char
  | [g], [] => g
  | g :: gs, m :: ms => g ++ m ++ glueGaps gs ms
  | _, _ => []

/-! ## CursorLogger.extract_json_objects (balanced-brace scanner) -/

/-- Python slice `text[a:b]`. -/
def sliceCs (cs : List Char) (a b : Nat) : List Char := (cs.drop a).take (b - a)

/-- The scanner loop of `CursorLogger.extract_json_objects`: walk the text
tracking brace depth; an opening brace at depth 0 records a start index; a
closing brace returning the depth to 0 closes the span, which is parsed and
appended if valid. -/
def scanGo (orig : List Char) : List Char → Nat → Int → Option Nat →
    List Json → List Json
  | [], _, _, _, acc => acc
  | c :: t, i, depth, start, acc =>
    if c = lbrace then
      scanGo orig t (i + 1) (depth + 1) (if depth = 0 then some i else start) acc
    else if c = rbrace then
      if depth - 1 = 0 then
        Option.elim start
          (scanGo orig t (i + 1) (depth - 1) none acc)
          (fun j =>
            scanGo orig t (i + 1) (depth - 1) none
              (Option.elim (jsonLoads (sliceCs orig j (i + 1)))
                acc (fun o => acc ++ [o])))
      else scanGo orig t (i + 1) (depth - 1) start acc
    else scanGo orig t (i + 1) depth start acc

/-- Model of `CursorLogger.extract_json_objects`. -/
def extract_json_objects (cs : List Char) : List Json :=
  scanGo cs cs 0 0 none []

/-- Brace depth of the prefix of length `k`, as tracked by the scanner:
openers minus closers, with no clamping at zero. -/
def prefixDepth (cs : List Char) (k : Nat) : Int :=
  ((cs.take k).count lbrace : Int) - ((cs.take k).count rbrace : Int)

/-- The last position strictly before `j` at which the tracked depth is 0. -/
def lastZeroBefore (cs : List Char) (j : Nat) : Option Nat :=
  ((List.range j).filter (fun m => prefixDepth cs m == 0)).getLast?

/-- The maximal balanced depth-0 span ending at position `j`, if any: `j`
closes a span exactly when the depth is 1 before it and 0 after it, and the
span opens at the last depth-0 position before `j`. -/
def spanEndingAt (cs : List Char) (j : Nat) : Option (Nat × Nat) :=
  if prefixDepth cs j = 1 ∧ prefixDepth cs (j + 1) = 0 then
    (lastZeroBefore cs j).map (fun i => (i, j))
  else none

/-- The depth-0 spans whose closing position is below `k`, left to right. -/
def spansUpTo (cs : List Char) (k : Nat) : List (Nat × Nat) :=
  (List.range k).filterMap (spanEndingAt cs)

/-- All maximal balanced depth-0 spans of the text, left to right. -/
def specSpans (cs : List Char) : List (Nat × Nat) := spansUpTo cs cs.length

/-! ## Python string ordering (list.sort on str) -/

/-- Code-point lexicographic strict order on character lists, Python's `<` on
`str`. -/
def lexLt : List Char → List Char → Bool
  | [], [] => false
  | [], _ :: _ => true
  | _ :: _, [] => false
  | a :: as, b :: bs =>
    if a.toNat < b.toNat then true
    else if b.toNat < a.toNat then false
    else lexLt as bs

/-- The non-strict order `a <= b` used to model Python's ascending sort. -/
def pyStrLe (a b : String) : Prop := lexLt b.data a.data = false

instance : DecidableRel pyStrLe := fun a b => instDecidableEqBool _ _

/-- Python `list.sort()` on strings: ascending, and since code-point order is
total and equal strings are identical, any comparison sort yields this list. -/
def pySortStrings (l : List String) : List String := List.insertionSort pyStrLe l

/-! ## MongoDBClient hashing -/

/-- The JSON-serialisation escape of one character used by `json.dumps` with
`ensure_ascii=False`: only the backslash, the double quote and control
characters are escaped. -/
def dumpChar (c : Char) : String :=
  if c = '"' then "\\\""
  else if c = '\\' then "\\\\"
  else if c = '\n' then "\\n"
  else if c = '\t' then "\\t"
  else if c.toNat = 13 then "\\r"
  else if c.toNat = 8 then "\\b"
  else if c.toNat = 12 then "\\f"
  else if c.toNat < 32 then
    "\\u00" ++ String.mk [hexDigit (c.toNat / 16), hexDigit (c.toNat % 16)]
  else String.mk [c]
where
  hexDigit (n : Nat) : Char := if n < 10 then Char.ofNat (48 + n) else Char.ofNat (87 + n)

def dumpStr (s : String) : String :=
  "\"" ++ String.join (s.data.map dumpChar) ++ "\""

/-- Key order used by `json.dumps(.., sort_keys=True)`: `sorted(d.items())`
compares keys first, and dict keys are distinct, so value comparison never
happens. -/
def keyLe (p q : String × String) : Prop := pyStrLe p.1 q.1

instance : DecidableRel keyLe := fun p q => instDecidableEqBool _ _

mutual

/-- Model of `json.dumps(v, sort_keys=True, ensure_ascii=False)` with the
default separators (", " and ": "). -/
def pyDumps : Json → String
  | .null => "null"
  | .bool true => "true"
  | .bool false => "false"
  | .num n => toString n
  | .str s => dumpStr s
  | .arr xs => "[" ++ String.intercalate ", " (pyDumpsList xs) ++ "]"
  | .obj kvs =>
    "\x7b" ++
      String.intercalate ", "
        ((List.insertionSort keyLe (pyDumpsKVs kvs)).map
          (fun q => dumpStr q.1 ++ ": " ++ q.2)) ++
      "\x7d"

def pyDumpsList : List Json → List String
  | [] => []
  | x :: xs => pyDumps x :: pyDumpsList xs

/-- Members rendered to (key, serialised value) pairs, in dict order; the
object case of `pyDumps` sorts these by key. -/
def pyDumpsKVs : List (String × Json) → List (String × String)
  | [] => []
  | p :: ps => (p.1, pyDumps p.2) :: pyDumpsKVs ps

end

/-- The extracted-text groups handed to the store: `save_to_mongodb` builds,
for each parsed object (by index) whose harvest is nonempty, a dict
`\x7b"object_index": idx, "texts": texts\x7d`. The texts are whatever the
harvester appended (strings, in every well-formed Cursor payload). -/
structure TextGroup where
  object_index : Nat
  texts : List Json

/-- The `extracted_texts` list built by `CursorLogger.save_to_mongodb`. -/
def buildExtractedTexts (js : List Json) : List TextGroup :=
  js.enum.filterMap (fun p =>
    match extract_text_from_cursor_json p.2 with
    | [] => none
    | t :: ts => some ⟨p.1, t :: ts⟩)

/-- The texts of all groups flattened, the `all_texts` of
`MongoDBClient._extract_text_hash`. -/
def flattenTexts (ets : List TextGroup) : List Json :=
  (ets.map TextGroup.texts).flatten

/-- Coerces a list of JSON values to strings, failing if any is not a string
(Python raises a `TypeError` from `sort`/`join` on mixed input, which the
callers' `try/except` blocks turn into their failure results). -/
def asStrings : List Json → Option (List String)
  | [] => some []
  | Json.str s :: t => (asStrings t).map (fun r => s :: r)
  | _ :: _ => none

/-- Model of `MongoDBClient._extract_text_hash`: flatten all group texts,
sort, join with a pipe, hash, stringify. `none` models a raised TypeError. -/
def extractTextHash (h : String → Int) (ets : List TextGroup) : Option String :=
  match asStrings (flattenTexts ets) with
  | some strs =>
    some (toString (h (String.intercalate "|" (pySortStrings strs))))
  | none => none

/-- Model of `MongoDBClient._hash_data` and `_json_objects_hash`: hash of the
sorted-keys serialisation of the object list. -/
def jsonObjectsHash (h : String → Int) (js : List Json) : String :=
  toString (h (pyDumps (Json.arr js)))

/-! ## Key-reordering equivalence on JSON trees -/

mutual

/-- Two JSON values that differ only by the order of keys inside objects
(at any depth); object keys are required to be distinct, as they are in any
value produced by a Python dict. -/
def KeyPerm : Json → Json → Prop
  | .obj kvs, .obj kvs' =>
    (kvs.map Prod.fst).Nodup ∧ ∃ mid, KeyPermKVs kvs mid ∧ mid.Perm kvs'
  | .arr xs, .arr ys => KeyPermList xs ys
  | a, b => a = b

def KeyPermKVs : List (String × Json) → List (String × Json) → Prop
  | [], [] => True
  | p :: ps, q :: qs => p.1 = q.1 ∧ KeyPerm p.2 q.2 ∧ KeyPermKVs ps qs
  | _ :: _, [] => False
  | [], _ :: _ => False

def KeyPermList : List Json → List Json → Prop
  | [], [] => True
  | x :: xs, y :: ys => KeyPerm x y ∧ KeyPermList xs ys
  | _ :: _, [] => False
  | [], _ :: _ => False

end

/-! ## MongoDBClient store model -/

/-- A document of the `api_requests` collection. Marker documents
(session start/end) leave the request-only fields at their defaults; queries
only ever inspect `session_id`, `type` and the two hash fields. -/
structure Doc where
  session_id : String
  type : String
  request_number : Option Nat := none
  timestamp : Nat := 0
  endpoint : Option String := none
  json_objects : List Json := []
  json_objects_count : Nat := 0
  extracted_texts : List TextGroup := []
  raw_size_bytes : Option Nat := none
  text_hash : Option String := none
  json_hash : Option String := none
  total_requests : Option Nat := none
  source : Option String := none

/-- The store: connection flag, the collection's documents in insertion
order, and a counter producing fresh document ids. -/
structure StoreState where
  connected : Bool
  docs : List Doc
  nextId : Nat

/-- An index as created by `MongoDBClient._create_indexes`; pymongo's
`create_index` without `unique=True` builds a non-unique index. -/
structure IndexSpec where
  keys : List String
  unique : Bool
deriving DecidableEq

/-- Model of `MongoDBClient._create_indexes`: the three indexes the client
creates, none of them unique. -/
def create_indexes : List IndexSpec :=
  [⟨["session_id"], false⟩, ⟨["session_id", "type"], false⟩, ⟨["timestamp"], false⟩]

/-- Model of `MongoDBClient.check_duplicate`. `findFails` models the
`find_one` call raising; the surrounding `try/except` then returns `False`
("on error, assume not duplicate to avoid data loss"), as does a raised
TypeError from the hash computation. -/
def check_duplicate (h : String → Int) (s : StoreState) (findFails : Bool)
    (session_id : String) (extracted_texts : List TextGroup)
    (json_objects : List Json) : Bool :=
  if s.connected = false then false
  else
    match extractTextHash h extracted_texts with
    | none => false
    | some text_hash =>
      let json_hash := jsonObjectsHash h json_objects
      if findFails then false
      else
        s.docs.any (fun d =>
          d.session_id == session_id && d.type == "api_request" &&
          d.text_hash == some text_hash && d.json_hash == some json_hash)

/-- The document `MongoDBClient.insert_request` builds for one accepted
request (field for field the `doc` dict of the source). -/
def mkRequestDoc (sid : String) (rn ts : Nat) (js : List Json)
    (ets : List TextGroup) (sz : Nat) (ep : String) (th jh : String) : Doc :=
  { session_id := sid, type := "api_request", request_number := some rn,
    timestamp := ts, endpoint := some ep, json_objects := js,
    json_objects_count := js.length, extracted_texts := ets,
    raw_size_bytes := some sz, text_hash := some th, json_hash := some jh }

/-- Model of `MongoDBClient.insert_request`: `None` when disconnected, on a
detected duplicate, or when anything in the `try` block raises
(`insertFails`, or the hash TypeError); otherwise the document is appended
and its id returned. -/
def insert_request (h : String → Int) (s : StoreState)
    (findFails insertFails : Bool) (session_id : String) (request_num : Nat)
    (timestamp : Nat) (json_objects : List Json)
    (extracted_texts : List TextGroup) (raw_size_bytes : Nat)
    (endpoint : String) : Option String × StoreState :=
  if s.connected = false then (none, s)
  else if check_duplicate h s findFails session_id extracted_texts json_objects then
    (none, s)
  else
    match extractTextHash h extracted_texts with
    | none => (none, s)
    | some text_hash =>
      let json_hash := jsonObjectsHash h json_objects
      if insertFails then (none, s)
      else
        let doc : Doc := mkRequestDoc session_id request_num timestamp
          json_objects extracted_texts raw_size_bytes endpoint text_hash json_hash
        (some (toString s.nextId),
         { s with docs := s.docs ++ [doc], nextId := s.nextId + 1 })

/-- Model of `MongoDBClient.log_session_start`. -/
def log_session_start (s : StoreState) (opFails : Bool) (session_id : String)
    (timestamp : Nat) : Bool × StoreState :=
  if s.connected = false then (false, s)
  else if opFails then (false, s)
  else
    (true,
     { s with
        docs := s.docs ++
          [{ session_id := session_id, type := "session_start",
             timestamp := timestamp, source := some "cursor_logger" }],
        nextId := s.nextId + 1 })

/-- Model of `MongoDBClient.log_session_end`. -/
def log_session_end (s : StoreState) (opFails : Bool) (session_id : String)
    (timestamp : Nat) (total_requests : Nat) : Bool × StoreState :=
  if s.connected = false then (false, s)
  else if opFails then (false, s)
  else
    (true,
     { s with
        docs := s.docs ++
          [{ session_id := session_id, type := "session_end",
             timestamp := timestamp, total_requests := some total_requests }],
        nextId := s.nextId + 1 })

structure SessionStats where
  session_id : String
  total_requests : Nat
  unique_requests : Nat
  duplicates_prevented : Nat
deriving DecidableEq

/-- Model of `MongoDBClient.get_session_stats`: count the persisted
api-request documents of the session, count the distinct hash pairs among
them, report the difference. `none` models the empty dict returned when
disconnected or when an operation raises. -/
def get_session_stats (s : StoreState) (opFails : Bool) (session_id : String) :
    Option SessionStats :=
  if s.connected = false then none
  else if opFails then none
  else
    let matching := s.docs.filter (fun d =>
      d.session_id == session_id && d.type == "api_request")
    let total := matching.length
    let uniq := ((matching.map (fun d => (d.text_hash, d.json_hash))).dedup).length
    some { session_id := session_id, total_requests := total,
           unique_requests := uniq, duplicates_prevented := total - uniq }

/-! ## Concrete values used by the counterexamples and witnesses -/

/-- The end-to-end example blob of the specification. -/
def exampleRaw : List Char :=
  ("noise \x7b\"root\":\x7b\"a\":\x7b\"type\":\"text\",\"text\":\"hi\"\x7d\x7d\x7d noise").data

/-- The fragment the specification expects from the example blob. -/
def exampleFragment : Json :=
  Json.obj [("root", Json.obj [("a",
    Json.obj [("type", Json.str "text"), ("text", Json.str "hi")])])]

/-- The single (truncated) candidate the non-greedy regex actually produces
on the example blob: it stops at the first closing brace that is directly
followed by another one, dropping the final brace. -/
def exampleTruncated : List Char :=
  ("\x7b\"root\":\x7b\"a\":\x7b\"type\":\"text\",\"text\":\"hi\"\x7d\x7d").data

/-- A concrete hash function for closed statements (the model is parametric
in the process-seeded Python `hash`). -/
def hLen : String → Int := fun s => (s.length : Int)

/-- A connected, empty store. -/
def emptyStore : StoreState := { connected := true, docs := [], nextId := 0 }

/-- A disconnected store holding no documents. -/
def downStore : StoreState := { connected := false, docs := [], nextId := 0 }

/-- Two distinct one-key objects, used to exhibit the fragment-order
sensitivity of the JSON fingerprint. -/
def objA : Json := Json.obj [("a", Json.num 1)]

def objB : Json := Json.obj [("b", Json.num 2)]

/-- A fragment containing no text node at all. -/
def noTextFragment : Json :=
  Json.obj [("k", Json.arr [Json.num 1, Json.obj [("type", Json.str "code")]])]

/-- The extracted-text groups of the end-to-end example. -/
def exampleGroups : List TextGroup := buildExtractedTexts [exampleFragment]

/-- The store reached from `emptyStore` by one successful insert of the
example request in session "s". -/
def exampleStore1 : StoreState :=
  (insert_request hLen emptyStore false false "s" 1 0 [exampleFragment]
    exampleGroups 54 "/chat").2

/-- A connected store already holding one api-request document whose hashes
are those of the empty request under `hLen` (text hash of no texts, JSON hash
of an empty object list). -/
def dupSeedStore : StoreState :=
  { connected := true,
    docs := [{ session_id := "s", type := "api_request",
               text_hash := some (toString (hLen "")),
               json_hash := some (jsonObjectsHash hLen []) }],
    nextId := 7 }

/-! # Theorems -/

/-! ## Harvester characterisation (used by claim C9) -/

mutual

theorem harvest_eq_filter : (j : Json) →
    extract_text_from_cursor_json j =
      ((subnodes j).filter isTextNode).filterMap textField
  | .null => rfl
  | .bool _ => rfl
  | .num _ => rfl
  | .str _ => rfl
  | .arr xs => by
    rw [extract_text_from_cursor_json, subnodes, harvestList_eq xs,
      List.filter_cons]
    simp [isTextNode]
  | .obj kvs => by
    rw [extract_text_from_cursor_json, harvestKVs_eq kvs, subnodes,
      List.filter_cons]
    rcases h1 : dictGet kvs "type" with _ | v
    · simp [isTextNode, h1]
    · rcases h2 : dictGet kvs "text" with _ | tv
      · cases v <;> simp [isTextNode, h1, h2]
      · cases v with
        | str t =>
          by_cases ht : t == "text" <;>
            simp [isTextNode, textField, h1, h2, ht]
        | null => simp [isTextNode, h1, h2]
        | bool b => simp [isTextNode, h1, h2]
        | num n => simp [isTextNode, h1, h2]
        | arr ys => simp [isTextNode, h1, h2]
        | obj kv2 => simp [isTextNode, h1, h2]

theorem harvestKVs_eq : (l : List (String × Json)) →
    harvestKVs l = ((subnodesKVs l).filter isTextNode).filterMap textField
  | [] => rfl
  | p :: ps => by
    rw [harvestKVs, subnodesKVs, List.filter_append, List.filterMap_append,
      harvest_eq_filter p.2, harvestKVs_eq ps]

theorem harvestList_eq : (l : List Json) →
    harvestList l = ((subnodesList l).filter isTextNode).filterMap textField
  | [] => rfl
  | x :: xs => by
    rw [harvestList, subnodesList, List.filter_append, List.filterMap_append,
      harvest_eq_filter x, harvestList_eq xs]

end

/-- C9: the harvester returns exactly the `text` values of the `type:"text"`
mapping nodes, in depth-first preorder; in particular a fragment with no such
node harvests to the empty sequence, and text nodes at every depth are all
returned, since the traversal (`subnodes`) continues below every node. -/
theorem c9_theorem (j : Json) :
    extract_text_from_cursor_json j =
      ((subnodes j).filter isTextNode).filterMap textField ∧
    ((∀ n ∈ subnodes j, isTextNode n = false) →
      extract_text_from_cursor_json j = []) := by
  refine ⟨harvest_eq_filter j, fun hno => ?_⟩
  rw [harvest_eq_filter j, List.filter_eq_nil_iff.mpr (by simpa using hno)]
  rfl

/-- Witness: on a concrete fragment with no text node the hypothesis of the
second part holds and the harvest is empty; the first part evaluates on the
end-to-end example fragment, which has text nodes at depth 2. -/
theorem c9_witness :
    (∀ n ∈ subnodes noTextFragment, isTextNode n = false) ∧
    extract_text_from_cursor_json noTextFragment = [] ∧
    extract_text_from_cursor_json exampleFragment =
      ((subnodes exampleFragment).filter isTextNode).filterMap textField :=
  ⟨by decide, (c9_theorem noTextFragment).2 (by decide),
   (c9_theorem exampleFragment).1⟩

/-! ## Claim C2 (end-to-end example) -/

/-- C2 counterexample: on the specification's end-to-end example blob the
regex-based extraction of `CursorLogger.request` yields no fragment at all
(the single non-greedy match is brace-truncated and fails to parse), not the
one expected fragment. -/
theorem c2_counterexample :
    requestExtractJson exampleRaw = [] ∧
    ([] : List Json) ≠ [exampleFragment] :=
  ⟨rfl, Ne.symm (List.cons_ne_nil exampleFragment [])⟩

/-- C2 as amended: the primary regex path produces exactly one candidate, the
truncated `\x7b"root":\x7b"a":\x7b...\x7d\x7d` prefix, which fails to parse, so the
request loop extracts zero fragments; the secondary balanced-brace scanner on
the same blob does produce the expected fragment, whose harvest is the single
TextGroup (object 0, texts ["hi"]); and the store accepts a first insert of
that payload and rejects an identical resend in the same session. -/
theorem c2_theorem :
    pyFindallRoot exampleRaw = [exampleTruncated] ∧
    jsonLoads exampleTruncated = none ∧
    requestExtractJson exampleRaw = [] ∧
    extract_json_objects exampleRaw = [exampleFragment] ∧
    extract_text_from_cursor_json exampleFragment = [Json.str "hi"] ∧
    exampleGroups = [⟨0, [Json.str "hi"]⟩] ∧
    (insert_request hLen emptyStore false false "s" 1 0 [exampleFragment]
      exampleGroups 54 "/chat").1 = some "0" ∧
    insert_request hLen exampleStore1 false false "s" 2 1 [exampleFragment]
      exampleGroups 54 "/chat" = (none, exampleStore1) :=
  ⟨rfl, rfl, rfl, rfl, rfl, rfl, rfl, rfl⟩

/-! ## Claim C3 (no store-enforced uniqueness) -/

/-- C3: `_create_indexes` creates no unique index and no index on the
`(session_id, text_hash, json_hash)` triple, and consequently a state holding
two api-request documents with identical `(session_id, text_hash, json_hash)`
is reachable: one clean insert followed by one insert whose duplicate lookup
fails (`check_duplicate`'s except branch) persists both. -/
theorem c3_theorem :
    (∀ ix ∈ create_indexes, ix.unique = false ∧
        ix.keys ≠ ["session_id", "text_hash", "json_hash"]) ∧
    2 ≤ ((insert_request hLen (insert_request hLen emptyStore false false
            "s" 1 0 [] [] 0 "e").2 true false "s" 2 0 [] [] 0 "e").2.docs.filter
          (fun d => d.session_id == "s" && d.type == "api_request" &&
            d.text_hash == some (toString (hLen "")) &&
            d.json_hash == some (jsonObjectsHash hLen []))).length :=
  ⟨by decide, by decide⟩

/-! ## Claim C4 (duplicate vs store failure indistinguishable) -/

/-- C4 counterexample: the result observed by the caller for an insert
against an unreachable store and for a duplicate insert is the same value
`none` — `insert_request` collapses both outcomes, so a store failure is
reported exactly like a prevented duplicate. -/
theorem c4_counterexample :
    (insert_request hLen downStore false false "s" 1 0 [exampleFragment]
        exampleGroups 54 "/chat").1 = none ∧
    (insert_request hLen exampleStore1 false false "s" 2 1 [exampleFragment]
        exampleGroups 54 "/chat").1 = none ∧
    (insert_request hLen downStore false false "s" 1 0 [exampleFragment]
        exampleGroups 54 "/chat").1 =
      (insert_request hLen exampleStore1 false false "s" 2 1 [exampleFragment]
        exampleGroups 54 "/chat").1 :=
  ⟨rfl, rfl, rfl⟩

/-- C4 as amended: whenever the store is unavailable, or the operation fails,
or a duplicate is detected, `insert_request` returns the very same observable
result `(none, unchanged state)`; the caller cannot distinguish the cases
from the return value (and `save_to_mongodb` logs them all as duplicates). -/
theorem c4_theorem (h : String → Int) (s : StoreState) (ff insf : Bool)
    (sid ep : String) (rn ts sz : Nat) (js : List Json) (ets : List TextGroup)
    (hfail : s.connected = false ∨ insf = true ∨
      check_duplicate h s ff sid ets js = true) :
    insert_request h s ff insf sid rn ts js ets sz ep = (none, s) := by
  unfold insert_request
  rcases hfail with hc | hi | hdup
  · simp [hc]
  · subst hi
    by_cases hc : s.connected = false
    · simp [hc]
    · simp only [hc, if_false]
      by_cases hd : check_duplicate h s ff sid ets js = true
      · simp [hd]
      · simp only [hd, if_false]
        cases extractTextHash h ets <;> simp
  · simp [hdup]

/-- Witness for the amended C4 at a concrete duplicate: resending the
example request to the store that already holds it yields `(none, s)`. -/
theorem c4_witness :
    check_duplicate hLen exampleStore1 false "s" exampleGroups
      [exampleFragment] = true ∧
    insert_request hLen exampleStore1 false false "s" 2 1 [exampleFragment]
      exampleGroups 54 "/chat" = (none, exampleStore1) :=
  ⟨rfl,
   c4_theorem hLen exampleStore1 false false "s" "/chat" 2 1 54
     [exampleFragment] exampleGroups (Or.inr (Or.inr rfl))⟩

/-! ## Claim C8 (store-unavailable degradation) -/

/-- C8: with a disconnected store every operation returns its failure
indicator (`none` id, `false`, empty stats) and leaves the persisted state
untouched; none of them can raise (they are total functions). -/
theorem c8_theorem (h : String → Int) (s : StoreState) (ff insf opf : Bool)
    (sid ep : String) (rn ts sz tr : Nat) (js : List Json)
    (ets : List TextGroup) (hconn : s.connected = false) :
    insert_request h s ff insf sid rn ts js ets sz ep = (none, s) ∧
    log_session_start s opf sid ts = (false, s) ∧
    log_session_end s opf sid ts tr = (false, s) ∧
    get_session_stats s opf sid = none := by
  unfold insert_request log_session_start log_session_end get_session_stats
  simp [hconn]

/-- Witness: the degradation at a concrete disconnected store. -/
theorem c8_witness :
    downStore.connected = false ∧
    insert_request hLen downStore false false "s" 1 0 [exampleFragment]
      exampleGroups 54 "/chat" = (none, downStore) ∧
    log_session_start downStore false "s" 0 = (false, downStore) ∧
    log_session_end downStore false "s" 9 3 = (false, downStore) ∧
    get_session_stats downStore false "s" = none := by
  refine ⟨rfl, ?_⟩
  have := c8_theorem hLen downStore false false false "s" "/chat" 1 0 54 3
    [exampleFragment] exampleGroups rfl
  exact ⟨this.1, this.2.1, by
    have := c8_theorem hLen downStore false false false "s" "/chat" 1 9 54 3
      [exampleFragment] exampleGroups rfl
    exact this.2.2.1, this.2.2.2⟩

/-! ## Claim C10 (failed duplicate lookup lets a duplicate through) -/

/-- C10: if the duplicate-existence lookup raises, `check_duplicate` returns
`False` and `insert_request` proceeds: even though a document with the same
`(session_id, text_hash, json_hash)` already exists, the insert succeeds and
a second document with that triple is persisted — deduplication is
best-effort and errs toward insertion. -/
theorem c10_theorem (h : String → Int) (s : StoreState) (sid ep : String)
    (rn ts sz : Nat) (js : List Json) (ets : List TextGroup) (th : String)
    (d : Doc) (hconn : s.connected = true)
    (hth : extractTextHash h ets = some th) (hd : d ∈ s.docs)
    (hdsid : d.session_id = sid) (hdty : d.type = "api_request")
    (hdth : d.text_hash = some th)
    (hdjh : d.json_hash = some (jsonObjectsHash h js)) :
    check_duplicate h s true sid ets js = false ∧
    (insert_request h s true false sid rn ts js ets sz ep).1 =
      some (toString s.nextId) ∧
    2 ≤ ((insert_request h s true false sid rn ts js ets sz ep).2.docs.filter
          (fun d2 => d2.session_id == sid && d2.type == "api_request" &&
            d2.text_hash == some th &&
            d2.json_hash == some (jsonObjectsHash h js))).length := by
  have hcd : check_duplicate h s true sid ets js = false := by
    unfold check_duplicate
    simp [hconn, hth]
  refine ⟨hcd, ?_, ?_⟩
  · unfold insert_request
    simp [hconn, hcd, hth]
  · unfold insert_request
    simp only [hconn, Bool.true_eq_false, if_false, hcd, hth]
    simp only [if_false, Bool.false_eq_true]
    rw [List.filter_append]
    rw [List.length_append]
    have hmem : d ∈ s.docs.filter (fun d2 =>
        d2.session_id == sid && d2.type == "api_request" &&
        d2.text_hash == some th &&
        d2.json_hash == some (jsonObjectsHash h js)) :=
      List.mem_filter.mpr ⟨hd, by simp [hdsid, hdty, hdth, hdjh]⟩
    have h1 : 1 ≤ (s.docs.filter (fun d2 =>
        d2.session_id == sid && d2.type == "api_request" &&
        d2.text_hash == some th &&
        d2.json_hash == some (jsonObjectsHash h js))).length :=
      List.length_pos.mpr (List.ne_nil_of_mem hmem)
    have h2 : (List.filter (fun d2 =>
        d2.session_id == sid && d2.type == "api_request" &&
        d2.text_hash == some th &&
        d2.json_hash == some (jsonObjectsHash h js))
        [mkRequestDoc sid rn ts js ets sz ep th (jsonObjectsHash h js)]).length
        = 1 := by
      simp [mkRequestDoc]
    omega

/-- Witness for C10 at a concrete seeded store. -/
theorem c10_witness :
    dupSeedStore.connected = true ∧
    extractTextHash hLen [] = some (toString (hLen "")) ∧
    check_duplicate hLen dupSeedStore true "s" [] [] = false ∧
    (insert_request hLen dupSeedStore true false "s" 2 0 [] [] 0 "e").1 =
      some "7" ∧
    2 ≤ ((insert_request hLen dupSeedStore true false "s" 2 0 [] [] 0
          "e").2.docs.filter
          (fun d2 => d2.session_id == "s" && d2.type == "api_request" &&
            d2.text_hash == some (toString (hLen "")) &&
            d2.json_hash == some (jsonObjectsHash hLen []))).length := by
  have h := c10_theorem hLen dupSeedStore "s" "e" 2 0 0 [] [] (toString (hLen ""))
    { session_id := "s", type := "api_request",
      text_hash := some (toString (hLen "")),
      json_hash := some (jsonObjectsHash hLen []) }
    rfl rfl (List.mem_singleton.mpr rfl) rfl rfl rfl rfl
  exact ⟨rfl, rfl, h.1, h.2.1, h.2.2⟩

/-! ## Claim C1 (dedup idempotence and statistics) -/

/-- C1 counterexample: inserting the example request twice in one session
persists one record and the second call is the duplicate no-op, but
`get_session_stats` then reports `total_requests = 1, unique_requests = 1,
duplicates_prevented = 0` — not the claimed `(2, 1, 1)` — because the store
counts only persisted documents and a prevented duplicate leaves no trace. -/
theorem c1_counterexample :
    get_session_stats
      (insert_request hLen exampleStore1 false false "s" 2 1 [exampleFragment]
        exampleGroups 54 "/chat").2 false "s" =
      some ⟨"s", 1, 1, 0⟩ ∧
    (⟨"s", 1, 1, 0⟩ : SessionStats) ≠ ⟨"s", 2, 1, 1⟩ :=
  ⟨rfl, by decide⟩

/-- C1 as amended: for every session with no prior api-request documents and
every logical request, the first insert persists exactly one `DedupRecord`
(the document built by `mkRequestDoc`) and returns its id, the second
identical call returns the duplicate no-op `none` leaving the state
unchanged, and `stats(session_id)` afterwards reports `total_requests = 1,
unique_requests = 1, duplicates_prevented = 1 - 1 = 0`: total counts only
persisted documents, so an attempted duplicate is invisible to it. -/
theorem c1_theorem (h : String → Int) (s : StoreState) (sid ep : String)
    (rn1 rn2 ts1 ts2 sz : Nat) (js : List Json) (ets : List TextGroup)
    (th : String) (hconn : s.connected = true)
    (hth : extractTextHash h ets = some th)
    (hclean : ∀ d ∈ s.docs, ¬(d.session_id = sid ∧ d.type = "api_request")) :
    insert_request h s false false sid rn1 ts1 js ets sz ep =
      (some (toString s.nextId),
       { s with
          docs := s.docs ++
            [mkRequestDoc sid rn1 ts1 js ets sz ep th (jsonObjectsHash h js)],
          nextId := s.nextId + 1 }) ∧
    insert_request h
        { s with
            docs := s.docs ++
              [mkRequestDoc sid rn1 ts1 js ets sz ep th (jsonObjectsHash h js)],
            nextId := s.nextId + 1 }
        false false sid rn2 ts2 js ets sz ep =
      (none,
       { s with
          docs := s.docs ++
            [mkRequestDoc sid rn1 ts1 js ets sz ep th (jsonObjectsHash h js)],
          nextId := s.nextId + 1 }) ∧
    get_session_stats
        { s with
            docs := s.docs ++
              [mkRequestDoc sid rn1 ts1 js ets sz ep th (jsonObjectsHash h js)],
            nextId := s.nextId + 1 } false sid =
      some ⟨sid, 1, 1, 0⟩ := by
  have hpred : ∀ d ∈ s.docs,
      (d.session_id == sid && d.type == "api_request" &&
        d.text_hash == some th &&
        d.json_hash == some (jsonObjectsHash h js)) = false := by
    intro d hd
    have hcl := hclean d hd
    simp only [Bool.and_eq_true, beq_iff_eq, Bool.eq_false_iff, ne_eq]
    intro hcontra
    exact hcl ⟨hcontra.1.1.1, hcontra.1.1.2⟩
  have hnotdup : check_duplicate h s false sid ets js = false := by
    unfold check_duplicate
    simp only [hconn, Bool.true_eq_false, if_false, hth]
    rw [if_neg (by simp)]
    exact List.any_eq_false.mpr (fun d hd => by simp [hpred d hd])
  have hdup2 : check_duplicate h
      { s with
          docs := s.docs ++
            [mkRequestDoc sid rn1 ts1 js ets sz ep th (jsonObjectsHash h js)],
          nextId := s.nextId + 1 } false sid ets js = true := by
    unfold check_duplicate
    simp only [hconn, Bool.true_eq_false, if_false, hth]
    rw [if_neg (by simp)]
    simp only [List.any_append, Bool.or_eq_true]
    exact Or.inr (by simp [mkRequestDoc])
  refine ⟨?_, ?_, ?_⟩
  · unfold insert_request
    simp [hconn, hnotdup, hth, mkRequestDoc]
  · unfold insert_request
    rw [if_neg (by simp [hconn]), if_pos hdup2]
  · unfold get_session_stats
    simp only [hconn, Bool.true_eq_false, if_false]
    rw [if_neg (by simp)]
    rw [List.filter_append]
    rw [List.filter_eq_nil_iff.mpr (fun d hd => by
      have hcl := hclean d hd
      simp only [Bool.and_eq_true, beq_iff_eq]
      tauto)]
    simp [mkRequestDoc]

/-- Witness for the amended C1 on the concrete example request. -/
theorem c1_witness :
    emptyStore.connected = true ∧
    extractTextHash hLen exampleGroups = some "2" ∧
    insert_request hLen emptyStore false false "s" 1 0 [exampleFragment]
        exampleGroups 54 "/chat" =
      (some "0",
       { emptyStore with
          docs := [mkRequestDoc "s" 1 0 [exampleFragment] exampleGroups 54
            "/chat" "2" (jsonObjectsHash hLen [exampleFragment])],
          nextId := 1 }) ∧
    get_session_stats
        { emptyStore with
            docs := [mkRequestDoc "s" 1 0 [exampleFragment] exampleGroups 54
              "/chat" "2" (jsonObjectsHash hLen [exampleFragment])],
            nextId := 1 } false "s" =
      some ⟨"s", 1, 1, 0⟩ := by
  have h := c1_theorem hLen emptyStore "s" "/chat" 1 2 0 1 54 [exampleFragment]
    exampleGroups "2" rfl rfl (by simp [emptyStore])
  exact ⟨rfl, rfl, h.1, h.2.2⟩

/-! ## Findall characterisation (used by claim C6) -/

/-- The extraction loop accumulates exactly the parse successes, in order. -/
theorem extractLoopAux_eq : (ms : List (List Char)) → (acc : List Json) →
    extractLoopAux ms acc = acc ++ ms.filterMap jsonLoads
  | [], acc => by simp [extractLoopAux]
  | m :: ms, acc => by
    rw [extractLoopAux]
    cases hm : jsonLoads m with
    | some o =>
      dsimp only
      rw [extractLoopAux_eq ms (acc ++ [o]), List.filterMap_cons, hm]
      simp
    | none =>
      dsimp only
      rw [extractLoopAux_eq ms acc, List.filterMap_cons, hm]

theorem stripLit_decomp : (lit cs r : List Char) →
    stripLit lit cs = some r → cs = lit ++ r
  | [], cs, r, h => by
    simp only [stripLit, Option.some.injEq] at h
    simpa using h
  | l :: ls, [], r, h => by simp [stripLit] at h
  | l :: ls, c :: cs, r, h => by
    rw [stripLit] at h
    by_cases hc : c = l
    · rw [if_pos hc] at h
      rw [List.cons_append, hc, stripLit_decomp ls cs r h]
    · rw [if_neg hc] at h
      exact absurd h (by simp)

/-- Decomposition and shape of a successful lazy-close match: the consumed
part is the input's prefix and ends with a brace, whitespace, brace. -/
theorem lazyClose_spec : (cs m r : List Char) → lazyClose cs = some (m, r) →
    cs = m ++ r ∧ ∃ body wc, (∀ x ∈ wc, isPyWs x = true) ∧
      m = body ++ [rbrace] ++ wc ++ [rbrace]
  | [], m, r, h => by simp [lazyClose] at h
  | c :: t, m, r, h => by
    rw [lazyClose] at h
    by_cases hc : c = rbrace
    · rw [if_pos hc] at h
      cases hdw : t.dropWhile isPyWs with
      | nil =>
        rw [hdw] at h
        try dsimp only at h
        obtain ⟨p, hp, hpe⟩ := Option.map_eq_some'.mp h
        have hm2 : m = c :: p.1 := (congrArg Prod.fst hpe).symm
        have hr2 : r = p.2 := (congrArg Prod.snd hpe).symm
        obtain ⟨ht, body, wc, hwc, hshape⟩ := lazyClose_spec t p.1 p.2 hp
        subst hm2 hr2
        exact ⟨by rw [List.cons_append, ← ht], c :: body, wc, hwc,
          by simp [hshape]⟩
      | cons d t3 =>
        rw [hdw] at h
        try dsimp only at h
        by_cases hd : d = rbrace
        · rw [if_pos hd] at h
          have hm2 : m = c :: (t.takeWhile isPyWs ++ [d]) :=
            (congrArg Prod.fst (Option.some.inj h)).symm
          have hr2 : r = t3 := (congrArg Prod.snd (Option.some.inj h)).symm
          subst hm2 hr2
          constructor
          · rw [List.cons_append]
            congr 1
            conv_lhs =>
              rw [← List.takeWhile_append_dropWhile (p := isPyWs) (l := t),
                hdw]
            simp
          · exact ⟨[], t.takeWhile isPyWs,
              fun x hx => List.mem_takeWhile_imp hx, by simp [hc, hd]⟩
        · rw [if_neg hd] at h
          obtain ⟨p, hp, hpe⟩ := Option.map_eq_some'.mp h
          have hm2 : m = c :: p.1 := (congrArg Prod.fst hpe).symm
          have hr2 : r = p.2 := (congrArg Prod.snd hpe).symm
          obtain ⟨ht, body, wc, hwc, hshape⟩ := lazyClose_spec t p.1 p.2 hp
          subst hm2 hr2
          exact ⟨by rw [List.cons_append, ← ht], c :: body, wc, hwc,
            by simp [hshape]⟩
    · rw [if_neg hc] at h
      obtain ⟨p, hp, hpe⟩ := Option.map_eq_some'.mp h
      have hm2 : m = c :: p.1 := (congrArg Prod.fst hpe).symm
      have hr2 : r = p.2 := (congrArg Prod.snd hpe).symm
      obtain ⟨ht, body, wc, hwc, hshape⟩ := lazyClose_spec t p.1 p.2 hp
      subst hm2 hr2
      exact ⟨by rw [List.cons_append, ← ht], c :: body, wc, hwc,
        by simp [hshape]⟩

/-- Decomposition and shape of a successful head match of the pattern. -/
theorem matchRootOpen_decomp (cs m r : List Char)
    (h : matchRootOpen cs = some (m, r)) :
    cs = m ++ r ∧ ∃ w1 w2 w3,
      (∀ x ∈ w1, isPyWs x = true) ∧ (∀ x ∈ w2, isPyWs x = true) ∧
      (∀ x ∈ w3, isPyWs x = true) ∧
      m = lbrace :: (w1 ++ litRoot ++ w2 ++ [':'] ++ w3 ++ [lbrace]) := by
  match cs with
  | [] => exact absurd h (by simp [matchRootOpen])
  | c :: t =>
    rw [matchRootOpen] at h
    by_cases hc : c = lbrace
    · rw [if_pos hc] at h
      try dsimp only at h
      cases hs : stripLit litRoot (t.dropWhile isPyWs) with
      | none => rw [hs] at h; exact absurd h (by simp)
      | some r2 =>
        rw [hs] at h
        try dsimp only at h
        cases hr3 : r2.dropWhile isPyWs with
        | nil => rw [hr3] at h; exact absurd h (by simp)
        | cons d r4 =>
          rw [hr3] at h
          try dsimp only at h
          by_cases hd : d = ':'
          · rw [if_pos hd] at h
            try dsimp only at h
            cases hr5 : r4.dropWhile isPyWs with
            | nil => rw [hr5] at h; exact absurd h (by simp)
            | cons e r6 =>
              rw [hr5] at h
              try dsimp only at h
              by_cases he : e = lbrace
              · rw [if_pos he] at h
                have hm2 : m = c :: (t.takeWhile isPyWs ++ litRoot ++
                    r2.takeWhile isPyWs ++ [d] ++ r4.takeWhile isPyWs ++ [e]) :=
                  (congrArg Prod.fst (Option.some.inj h)).symm
                have hr2x : r = r6 :=
                  (congrArg Prod.snd (Option.some.inj h)).symm
                subst hm2 hr2x
                have ht : t = t.takeWhile isPyWs ++ (litRoot ++ r2) := by
                  conv_lhs => rw [← List.takeWhile_append_dropWhile (p := isPyWs) (l := t)]
                  rw [stripLit_decomp litRoot (t.dropWhile isPyWs) r2 hs]
                have hr2 : r2 = r2.takeWhile isPyWs ++ (d :: r4) := by
                  conv_lhs => rw [← List.takeWhile_append_dropWhile (p := isPyWs) (l := r2)]
                  rw [hr3]
                have hr4 : r4 = r4.takeWhile isPyWs ++ (e :: r) := by
                  conv_lhs => rw [← List.takeWhile_append_dropWhile (p := isPyWs) (l := r4)]
                  rw [hr5]
                constructor
                · subst hc
                  rw [List.cons_append]
                  congr 1
                  conv_lhs => rw [ht]
                  conv_lhs => rw [hr2]
                  conv_lhs => rw [hr4]
                  simp
                · exact ⟨t.takeWhile isPyWs, r2.takeWhile isPyWs,
                    r4.takeWhile isPyWs,
                    fun x hx => List.mem_takeWhile_imp hx,
                    fun x hx => List.mem_takeWhile_imp hx,
                    fun x hx => List.mem_takeWhile_imp hx,
                    by rw [hc, hd, he]⟩
              · rw [if_neg he] at h; exact absurd h (by simp)
          · rw [if_neg hd] at h; exact absurd h (by simp)
    · rw [if_neg hc] at h; exact absurd h (by simp)

/-- A successful anchored match consumes a nonempty prefix that is an
instance of the fragment pattern. -/
theorem matchRootAt_spec (cs m r : List Char)
    (h : matchRootAt cs = some (m, r)) :
    cs = m ++ r ∧ m ≠ [] ∧ RootShape m := by
  rw [matchRootAt] at h
  cases ho : matchRootOpen cs with
  | none => rw [ho] at h; exact absurd h (by simp)
  | some pr =>
    rw [ho] at h
    try dsimp only at h
    obtain ⟨p, hp, hpe⟩ := Option.map_eq_some'.mp h
    have hm2 : m = pr.1 ++ p.1 := (congrArg Prod.fst hpe).symm
    have hr2 : r = p.2 := (congrArg Prod.snd hpe).symm
    obtain ⟨hcs1, w1, w2, w3, hw1, hw2, hw3, hpre⟩ :=
      matchRootOpen_decomp cs pr.1 pr.2 ho
    obtain ⟨hcs2, body, wc, hwc, hbody⟩ := lazyClose_spec pr.2 p.1 p.2 hp
    subst hm2 hr2
    refine ⟨by rw [hcs1, hcs2, List.append_assoc], by simp [hpre], ?_⟩
    exact ⟨w1, w2, w3, body, wc, hw1, hw2, hw3, hwc, by
      rw [hpre, hbody]; simp⟩

/-- Unfolding of `glueGaps` on two cons cells (the defining match inspects
both lists, so this does not hold definitionally for a variable tail). -/
theorem glueGaps_cons_cons (g : List Char) (gs : List (List Char))
    (m : List Char) (ms : List (List Char)) :
    glueGaps (g :: gs) (m :: ms) = g ++ m ++ glueGaps gs ms := by
  cases gs <;> rfl

/-- The matches found by the scan occur disjointly, left to right: the text
splits as gap, match, gap, match, ..., gap. -/
theorem findallGo_interleave : (fuel : Nat) → (cs : List Char) →
    cs.length < fuel →
    ∃ gaps, gaps.length = (pyFindallRootGo fuel cs).length + 1 ∧
      glueGaps gaps (pyFindallRootGo fuel cs) = cs
  | 0, cs, h => absurd h (by omega)
  | fuel + 1, cs, h => by
    show ∃ gaps,
      gaps.length = (Option.elim (matchRootAt cs)
          (List.casesOn cs [] (fun _ t => pyFindallRootGo fuel t))
          (fun p => p.1 :: pyFindallRootGo fuel p.2)).length + 1 ∧
      glueGaps gaps (Option.elim (matchRootAt cs)
          (List.casesOn cs [] (fun _ t => pyFindallRootGo fuel t))
          (fun p => p.1 :: pyFindallRootGo fuel p.2)) = cs
    cases hm : matchRootAt cs with
    | some p =>
      simp only [Option.elim]
      obtain ⟨hcs, hne, _⟩ := matchRootAt_spec cs p.1 p.2 hm
      have hlen : p.2.length < fuel := by
        have h1 : cs.length = p.1.length + p.2.length := by
          rw [hcs, List.length_append]
        have h2 : 1 ≤ p.1.length := by
          cases hp1 : p.1 with
          | nil => exact absurd hp1 hne
          | cons a b => simp
        omega
      obtain ⟨gaps, hg1, hg2⟩ := findallGo_interleave fuel p.2 hlen
      cases gaps with
      | nil => simp at hg1
      | cons g gs =>
        refine ⟨[] :: g :: gs, by simpa using hg1, ?_⟩
        show [] ++ p.1 ++ glueGaps (g :: gs) (pyFindallRootGo fuel p.2) = cs
        rw [hg2, hcs]
        simp
    | none =>
      simp only [Option.elim]
      cases cs with
      | nil => exact ⟨[[]], rfl, rfl⟩
      | cons c t =>
        show ∃ gaps, gaps.length = (pyFindallRootGo fuel t).length + 1 ∧
          glueGaps gaps (pyFindallRootGo fuel t) = c :: t
        have hlen : t.length < fuel := by
          simp only [List.length_cons] at h
          omega
        obtain ⟨gaps, hg1, hg2⟩ := findallGo_interleave fuel t hlen
        cases gaps with
        | nil => simp at hg1
        | cons g gs =>
          refine ⟨(c :: g) :: gs, by simpa using hg1, ?_⟩
          cases hms : pyFindallRootGo fuel t with
          | nil =>
            have hgs : gs = [] := by
              rw [hms] at hg1
              simpa using hg1
            subst hgs
            rw [hms] at hg2
            show c :: g = c :: t
            have hgt : g = t := hg2
            rw [hgt]
          | cons m ms =>
            rw [hms] at hg2
            rw [glueGaps_cons_cons] at hg2
            rw [glueGaps_cons_cons]
            rw [← hg2]
            simp

/-- Every match emitted by the scan is an instance of the pattern. -/
theorem findallGo_shape : (fuel : Nat) → (cs : List Char) →
    ∀ m ∈ pyFindallRootGo fuel cs, RootShape m
  | 0, cs => by simp [pyFindallRootGo]
  | fuel + 1, cs => by
    show ∀ m ∈ Option.elim (matchRootAt cs)
        (List.casesOn cs [] (fun _ t => pyFindallRootGo fuel t))
        (fun p => p.1 :: pyFindallRootGo fuel p.2), RootShape m
    cases hm : matchRootAt cs with
    | some p =>
      simp only [Option.elim]
      intro m hm2
      rcases List.mem_cons.mp hm2 with hh | ht
      · subst hh
        exact (matchRootAt_spec cs p.1 p.2 hm).2.2
      · exact findallGo_shape fuel p.2 m ht
    | none =>
      simp only [Option.elim]
      cases cs with
      | nil => simp
      | cons c t =>
        show ∀ m ∈ pyFindallRootGo fuel t, RootShape m
        exact findallGo_shape fuel t

/-- C6: the primary extractor's output is exactly the pattern matches that
parse as JSON, each exactly once, in order (`List.filterMap` keeps order and
multiplicity); the matches are disjoint substrings of the blob in
left-to-right order (the gap decomposition), and each match is an instance
of the fragment pattern. The extractor is a total function, hence never
raises. -/
theorem c6_theorem (cs : List Char) :
    requestExtractJson cs = (pyFindallRoot cs).filterMap jsonLoads ∧
    (∃ gaps, gaps.length = (pyFindallRoot cs).length + 1 ∧
      glueGaps gaps (pyFindallRoot cs) = cs) ∧
    ∀ m ∈ pyFindallRoot cs, RootShape m := by
  refine ⟨?_, ?_, ?_⟩
  · rw [requestExtractJson, extractLoopAux_eq]
    simp
  · exact findallGo_interleave (cs.length + 1) cs (by omega)
  · exact findallGo_shape (cs.length + 1) cs

/-- Witness: the characterisation evaluated on the end-to-end example blob. -/
theorem c6_witness :
    requestExtractJson exampleRaw =
      (pyFindallRoot exampleRaw).filterMap jsonLoads ∧
    RootShape exampleTruncated :=
  ⟨(c6_theorem exampleRaw).1,
   (c6_theorem exampleRaw).2.2 exampleTruncated (List.mem_singleton.mpr rfl)⟩

/-! ## String order and sorting (used by claim C5) -/

theorem charEqOfToNat (a b : Char) (h : a.toNat = b.toNat) : a = b :=
  Char.ext (UInt32.ext h)

theorem lexLt_irrefl : ∀ l : List Char, lexLt l l = false
  | [] => rfl
  | a :: as => by
    rw [lexLt]
    simp [Nat.lt_irrefl, lexLt_irrefl as]

theorem lexLt_trans : ∀ (a b c : List Char), lexLt a b = true →
    lexLt b c = true → lexLt a c = true
  | [], [], _, h1, _ => by simp [lexLt] at h1
  | [], _ :: _, [], _, h2 => by simp [lexLt] at h2
  | [], _ :: _, _ :: _, _, _ => rfl
  | _ :: _, [], _, h1, _ => by simp [lexLt] at h1
  | _ :: _, _ :: _, [], _, h2 => by simp [lexLt] at h2
  | a :: as, b :: bs, c :: cs, h1, h2 => by
    rw [lexLt] at h1 h2 ⊢
    by_cases hab : a.toNat < b.toNat
    · by_cases hbc : b.toNat < c.toNat
      · rw [if_pos (by omega)]
      · rw [if_neg hbc] at h2
        by_cases hcb : c.toNat < b.toNat
        · rw [if_pos hcb] at h2
          exact absurd h2 (by simp)
        · rw [if_pos (by omega)]
    · rw [if_neg hab] at h1
      by_cases hba : b.toNat < a.toNat
      · rw [if_pos hba] at h1
        exact absurd h1 (by simp)
      · rw [if_neg hba] at h1
        by_cases hbc : b.toNat < c.toNat
        · rw [if_pos (by omega)]
        · rw [if_neg hbc] at h2
          by_cases hcb : c.toNat < b.toNat
          · rw [if_pos hcb] at h2
            exact absurd h2 (by simp)
          · rw [if_neg hcb] at h2
            rw [if_neg (by omega), if_neg (by omega)]
            exact lexLt_trans as bs cs h1 h2

theorem lexLt_eq_of_both_false : ∀ (a b : List Char), lexLt a b = false →
    lexLt b a = false → a = b
  | [], [], _, _ => rfl
  | [], _ :: _, h1, _ => by simp [lexLt] at h1
  | _ :: _, [], _, h2 => by simp [lexLt] at h2
  | a :: as, b :: bs, h1, h2 => by
    rw [lexLt] at h1 h2
    by_cases hab : a.toNat < b.toNat
    · rw [if_pos hab] at h1
      exact absurd h1 (by simp)
    · by_cases hba : b.toNat < a.toNat
      · rw [if_pos hba] at h2
        exact absurd h2 (by simp)
      · rw [if_neg hab, if_neg hba] at h1
        rw [if_neg hba, if_neg hab] at h2
        rw [charEqOfToNat a b (by omega),
          lexLt_eq_of_both_false as bs h1 h2]

theorem pyStrLe_total (a b : String) : pyStrLe a b ∨ pyStrLe b a := by
  unfold pyStrLe
  by_cases h1 : lexLt b.data a.data = false
  · exact Or.inl h1
  · refine Or.inr ?_
    by_cases h2 : lexLt a.data b.data = false
    · exact h2
    · exfalso
      have h1t : lexLt b.data a.data = true := by
        revert h1; cases lexLt b.data a.data <;> simp
      have h2t : lexLt a.data b.data = true := by
        revert h2; cases lexLt a.data b.data <;> simp
      have := lexLt_trans _ _ _ h1t h2t
      rw [lexLt_irrefl] at this
      exact absurd this (by simp)

theorem pyStrLe_trans (a b c : String) (h1 : pyStrLe a b) (h2 : pyStrLe b c) :
    pyStrLe a c := by
  unfold pyStrLe at h1 h2 ⊢
  by_cases hac : lexLt c.data a.data = false
  · exact hac
  · exfalso
    have hact : lexLt c.data a.data = true := by
      revert hac; cases lexLt c.data a.data <;> simp
    by_cases hab : lexLt a.data b.data = false
    · have heq := lexLt_eq_of_both_false a.data b.data hab h1
      rw [← heq] at h2
      rw [h2] at hact
      exact absurd hact (by simp)
    · have habt : lexLt a.data b.data = true := by
        revert hab; cases lexLt a.data b.data <;> simp
      have := lexLt_trans _ _ _ hact habt
      rw [h2] at this
      exact absurd this (by simp)

theorem pyStrLe_antisymm (a b : String) (h1 : pyStrLe a b) (h2 : pyStrLe b a) :
    a = b :=
  String.ext (lexLt_eq_of_both_false a.data b.data h2 h1)

/-- Any permutation of a string list sorts to the same list (Python's
`list.sort` output is determined by the multiset of elements). -/
theorem pySortStrings_perm_eq (s₁ s₂ : List String) (hp : s₁.Perm s₂) :
    pySortStrings s₁ = pySortStrings s₂ := by
  haveI : IsTotal String pyStrLe := ⟨pyStrLe_total⟩
  haveI : IsTrans String pyStrLe := ⟨pyStrLe_trans⟩
  haveI : IsAntisymm String pyStrLe := ⟨pyStrLe_antisymm⟩
  exact List.eq_of_perm_of_sorted
    ((List.perm_insertionSort _ s₁).trans
      (hp.trans (List.perm_insertionSort _ s₂).symm))
    (List.sorted_insertionSort _ s₁) (List.sorted_insertionSort _ s₂)

/-- Two sorted pair lists that are permutations of each other with distinct
keys are equal (key order is total, and a key determines its entry). -/
theorem sortedPairs_eq : (s₁ s₂ : List (String × String)) → s₁.Perm s₂ →
    List.Sorted keyLe s₁ → List.Sorted keyLe s₂ →
    (s₁.map Prod.fst).Nodup → s₁ = s₂
  | [], s₂, hp, _, _, _ => hp.nil_eq
  | p :: t₁, s₂, hp, hs₁, hs₂, hnd => by
    cases s₂ with
    | nil => exact absurd (hp.eq_nil) (by simp)
    | cons q t₂ =>
      rw [List.map_cons, List.nodup_cons] at hnd
      have hpq : p = q := by
        have hpmem : p ∈ q :: t₂ := hp.mem_iff.mp (List.mem_cons_self p t₁)
        have hqmem : q ∈ p :: t₁ := hp.symm.mem_iff.mp (List.mem_cons_self q t₂)
        rcases List.mem_cons.mp hpmem with hh | hh
        · exact hh
        · rcases List.mem_cons.mp hqmem with hh2 | hh2
          · exact hh2.symm
          · exfalso
            have h1 : keyLe q p := (List.sorted_cons.mp hs₂).1 p hh
            have h2 : keyLe p q := (List.sorted_cons.mp hs₁).1 q hh2
            have hk : p.1 = q.1 := pyStrLe_antisymm _ _ h2 h1
            have : q.1 ∈ t₁.map Prod.fst := List.mem_map_of_mem Prod.fst hh2
            rw [← hk] at this
            exact hnd.1 this
      subst hpq
      rw [sortedPairs_eq t₁ t₂ hp.cons_inv (List.sorted_cons.mp hs₁).2
        (List.sorted_cons.mp hs₂).2 hnd.2]

/-- Sorting by key is invariant under permutation when keys are distinct. -/
theorem sortPairs_perm_eq (l₁ l₂ : List (String × String)) (hp : l₁.Perm l₂)
    (hnd : (l₁.map Prod.fst).Nodup) :
    List.insertionSort keyLe l₁ = List.insertionSort keyLe l₂ := by
  haveI : IsTotal (String × String) keyLe := ⟨fun p q => pyStrLe_total p.1 q.1⟩
  haveI : IsTrans (String × String) keyLe :=
    ⟨fun p q r => pyStrLe_trans p.1 q.1 r.1⟩
  apply sortedPairs_eq
  · exact (List.perm_insertionSort _ l₁).trans
      (hp.trans (List.perm_insertionSort _ l₂).symm)
  · exact List.sorted_insertionSort _ l₁
  · exact List.sorted_insertionSort _ l₂
  · exact (((List.perm_insertionSort keyLe l₁).map Prod.fst).nodup_iff).mpr hnd

theorem pyDumpsKVs_map (l : List (String × Json)) :
    pyDumpsKVs l = l.map (fun p => (p.1, pyDumps p.2)) := by
  induction l with
  | nil => rfl
  | cons p ps ih => rw [pyDumpsKVs, ih]; rfl

mutual

/-- The sorted-keys serialisation is invariant under key reordering inside
objects (at any depth). -/
theorem dumps_keyPerm : (a b : Json) → KeyPerm a b → pyDumps a = pyDumps b
  | .null, b, hk => by cases b <;> (try cases hk) <;> rfl
  | .bool v, b, hk => by cases b <;> (try cases hk) <;> rfl
  | .num n, b, hk => by cases b <;> (try cases hk) <;> rfl
  | .str s, b, hk => by cases b <;> (try cases hk) <;> rfl
  | .arr xs, b, hk => by
    cases b with
    | arr ys =>
      rw [pyDumps, pyDumps, dumpsList_keyPerm xs ys hk]
    | null => cases hk
    | bool v => cases hk
    | num n => cases hk
    | str s => cases hk
    | obj kvs => cases hk
  | .obj kvs, b, hk => by
    cases b with
    | obj kvs' =>
      obtain ⟨hnd, mid, hkvs, hperm⟩ := hk
      have h1 : pyDumpsKVs kvs = pyDumpsKVs mid := dumpsKVs_keyPerm kvs mid hkvs
      have h2 : (pyDumpsKVs kvs).Perm (pyDumpsKVs kvs') := by
        rw [h1, pyDumpsKVs_map, pyDumpsKVs_map]
        exact hperm.map _
      have hnd2 : ((pyDumpsKVs kvs).map Prod.fst).Nodup := by
        rw [pyDumpsKVs_map, List.map_map]
        rw [show (Prod.fst ∘ fun p : String × Json => (p.1, pyDumps p.2)) =
          Prod.fst from rfl]
        exact hnd
      rw [pyDumps, pyDumps, sortPairs_perm_eq _ _ h2 hnd2]
    | null => cases hk
    | bool v => cases hk
    | num n => cases hk
    | str s => cases hk
    | arr ys => cases hk

theorem dumpsList_keyPerm : (xs ys : List Json) → KeyPermList xs ys →
    pyDumpsList xs = pyDumpsList ys
  | [], [], _ => rfl
  | [], _ :: _, hk => nomatch hk
  | _ :: _, [], hk => nomatch hk
  | x :: xs, y :: ys, hk => by
    obtain ⟨h1, h2⟩ := hk
    rw [pyDumpsList, pyDumpsList, dumps_keyPerm x y h1,
      dumpsList_keyPerm xs ys h2]

theorem dumpsKVs_keyPerm : (ps qs : List (String × Json)) → KeyPermKVs ps qs →
    pyDumpsKVs ps = pyDumpsKVs qs
  | [], [], _ => rfl
  | [], _ :: _, hk => nomatch hk
  | _ :: _, [], hk => nomatch hk
  | p :: ps, q :: qs, hk => by
    obtain ⟨h1, h2, h3⟩ := hk
    rw [pyDumpsKVs, pyDumpsKVs, h1, dumps_keyPerm p.2 q.2 h2,
      dumpsKVs_keyPerm ps qs h3]

end

/-! ## Text fingerprint permutation invariance (claim C5) -/

/-- Permuted JSON lists coerce to strings consistently: either both fail or
both succeed with permuted results. -/
theorem asStrings_perm (l₁ l₂ : List Json) (hp : l₁.Perm l₂) :
    (asStrings l₁ = none ∧ asStrings l₂ = none) ∨
    ∃ s₁ s₂, asStrings l₁ = some s₁ ∧ asStrings l₂ = some s₂ ∧ s₁.Perm s₂ := by
  induction hp with
  | nil => exact Or.inr ⟨[], [], rfl, rfl, .nil⟩
  | cons x hpl ih =>
    cases x with
    | str s =>
      rcases ih with ⟨h1, h2⟩ | ⟨s₁, s₂, h1, h2, hp2⟩
      · exact Or.inl ⟨by simp [asStrings, h1], by simp [asStrings, h2]⟩
      · exact Or.inr ⟨s :: s₁, s :: s₂, by simp [asStrings, h1],
          by simp [asStrings, h2], .cons s hp2⟩
    | null => exact Or.inl ⟨rfl, rfl⟩
    | bool v => exact Or.inl ⟨rfl, rfl⟩
    | num n => exact Or.inl ⟨rfl, rfl⟩
    | arr ys => exact Or.inl ⟨rfl, rfl⟩
    | obj kvs => exact Or.inl ⟨rfl, rfl⟩
  | swap x y l =>
    cases x with
    | str sx =>
      cases y with
      | str sy =>
        cases hl : asStrings l with
        | none => exact Or.inl ⟨by simp [asStrings, hl], by simp [asStrings, hl]⟩
        | some s =>
          exact Or.inr ⟨sy :: sx :: s, sx :: sy :: s,
            by simp [asStrings, hl], by simp [asStrings, hl], .swap sx sy s⟩
      | null => exact Or.inl ⟨by simp [asStrings], rfl⟩
      | bool v => exact Or.inl ⟨by simp [asStrings], rfl⟩
      | num n => exact Or.inl ⟨by simp [asStrings], rfl⟩
      | arr ys => exact Or.inl ⟨by simp [asStrings], rfl⟩
      | obj kvs => exact Or.inl ⟨by simp [asStrings], rfl⟩
    | null => exact Or.inl ⟨by cases y <;> simp [asStrings], rfl⟩
    | bool v => exact Or.inl ⟨by cases y <;> simp [asStrings], rfl⟩
    | num n => exact Or.inl ⟨by cases y <;> simp [asStrings], rfl⟩
    | arr ys => exact Or.inl ⟨by cases y <;> simp [asStrings], rfl⟩
    | obj kvs => exact Or.inl ⟨by cases y <;> simp [asStrings], rfl⟩
  | trans hp1 hp2 ih1 ih2 =>
    rcases ih1 with ⟨ha, hb⟩ | ⟨s₁, s₂, ha, hb, hab⟩ <;>
      rcases ih2 with ⟨hc, hd⟩ | ⟨s₃, s₄, hc, hd, hcd⟩
    · exact Or.inl ⟨ha, hd⟩
    · rw [hb] at hc
      exact absurd hc (by simp)
    · rw [hb] at hc
      exact absurd hc (by simp)
    · rw [hb] at hc
      obtain rfl : s₂ = s₃ := by
        have := Option.some.inj hc
        exact this
      exact Or.inr ⟨s₁, s₄, ha, hd, hab.trans hcd⟩

/-- The text fingerprint is invariant under permutation of the text groups. -/
theorem extractTextHash_perm (h : String → Int) (ets ets' : List TextGroup)
    (hp : ets.Perm ets') :
    extractTextHash h ets = extractTextHash h ets' := by
  have hflat : (flattenTexts ets).Perm (flattenTexts ets') :=
    (hp.map TextGroup.texts).flatten
  rcases asStrings_perm _ _ hflat with ⟨h1, h2⟩ | ⟨s₁, s₂, h1, h2, hp2⟩
  · rw [extractTextHash, extractTextHash, h1, h2]
  · rw [extractTextHash, extractTextHash, h1, h2]
    dsimp only
    rw [show pySortStrings s₁ = pySortStrings s₂ from
      pySortStrings_perm_eq s₁ s₂ hp2]

/-- The JSON fingerprint is invariant under key reordering within objects. -/
theorem jsonObjectsHash_keyPerm (h : String → Int) (js js' : List Json)
    (hk : KeyPermList js js') : jsonObjectsHash h js = jsonObjectsHash h js' := by
  unfold jsonObjectsHash
  rw [dumps_keyPerm (Json.arr js) (Json.arr js') hk]

/-- C5: fingerprinting is deterministic within a run (the model is a pure
function of the inputs and the per-process `hash` seed `h`); the text
fingerprint is unchanged under any permutation of the text groups; the JSON
fingerprint is unchanged under key reordering inside objects; and it may
change when the order of fragments in the list changes: swapping two distinct
fragments is a permutation that changes the canonical serialisation fed to
the hash. -/
theorem c5_theorem (h : String → Int) (ets ets' : List TextGroup)
    (js js' : List Json) (hperm : ets.Perm ets') (hkp : KeyPermList js js') :
    extractTextHash h ets = extractTextHash h ets ∧
    extractTextHash h ets = extractTextHash h ets' ∧
    jsonObjectsHash h js = jsonObjectsHash h js' ∧
    ([objA, objB].Perm [objB, objA] ∧
      pyDumps (Json.arr [objA, objB]) ≠ pyDumps (Json.arr [objB, objA])) :=
  ⟨rfl, extractTextHash_perm h ets ets' hperm,
   jsonObjectsHash_keyPerm h js js' hkp,
   List.Perm.swap objB objA [], by decide⟩

/-- Witness for C5: concrete permuted text groups and a concrete key
reordering inside an object. -/
theorem c5_witness :
    ([⟨0, [Json.str "b"]⟩, ⟨1, [Json.str "a"]⟩] :
        List TextGroup).Perm [⟨1, [Json.str "a"]⟩, ⟨0, [Json.str "b"]⟩] ∧
    KeyPermList [Json.obj [("a", Json.num 1), ("b", Json.num 2)]]
      [Json.obj [("b", Json.num 2), ("a", Json.num 1)]] ∧
    extractTextHash hLen [⟨0, [Json.str "b"]⟩, ⟨1, [Json.str "a"]⟩] =
      extractTextHash hLen [⟨1, [Json.str "a"]⟩, ⟨0, [Json.str "b"]⟩] ∧
    jsonObjectsHash hLen [Json.obj [("a", Json.num 1), ("b", Json.num 2)]] =
      jsonObjectsHash hLen [Json.obj [("b", Json.num 2), ("a", Json.num 1)]] ∧
    pyDumps (Json.arr [objA, objB]) ≠ pyDumps (Json.arr [objB, objA]) := by
  have hperm : ([⟨0, [Json.str "b"]⟩, ⟨1, [Json.str "a"]⟩] :
      List TextGroup).Perm [⟨1, [Json.str "a"]⟩, ⟨0, [Json.str "b"]⟩] :=
    List.Perm.swap _ _ []
  have hkp : KeyPermList [Json.obj [("a", Json.num 1), ("b", Json.num 2)]]
      [Json.obj [("b", Json.num 2), ("a", Json.num 1)]] := by
    refine ⟨⟨by simp, [("a", Json.num 1), ("b", Json.num 2)], ?_, ?_⟩, trivial⟩
    · exact ⟨rfl, rfl, rfl, rfl, trivial⟩
    · exact List.Perm.swap _ _ []
  have hc := c5_theorem hLen _ _ _ _ hperm hkp
  exact ⟨hperm, hkp, hc.2.1, hc.2.2.1, hc.2.2.2.2⟩

/-! ## Brace-scanner characterisation (claim C7) -/

theorem prefixDepth_zero (cs : List Char) : prefixDepth cs 0 = 0 := by
  simp [prefixDepth]

theorem prefixDepth_succ (cs : List Char) (k : Nat) (c : Char)
    (hk : cs[k]? = some c) :
    prefixDepth cs (k + 1) = prefixDepth cs k +
      (if c = lbrace then 1 else if c = rbrace then -1 else 0) := by
  unfold prefixDepth
  rw [List.take_succ, hk]
  simp only [Option.toList_some]
  rw [List.count_append, List.count_append]
  by_cases h1 : c = lbrace
  · subst h1
    rw [if_pos rfl]
    have e1 : List.count lbrace [lbrace] = 1 := by decide
    have e2 : List.count rbrace [lbrace] = 0 := by decide
    rw [e1, e2]
    push_cast
    omega
  · by_cases h2 : c = rbrace
    · subst h2
      rw [if_neg h1, if_pos rfl]
      have e1 : List.count lbrace [rbrace] = 0 := by decide
      have e2 : List.count rbrace [rbrace] = 1 := by decide
      rw [e1, e2]
      push_cast
      omega
    · rw [if_neg h1, if_neg h2]
      have e1 : List.count lbrace [c] = 0 := by
        simp [List.count_cons, beq_iff_eq, h1]
      have e2 : List.count rbrace [c] = 0 := by
        simp [List.count_cons, beq_iff_eq, h2]
      rw [e1, e2]
      push_cast
      omega

theorem prefixDepth_stable (cs : List Char) (k : Nat) (hk : cs.length ≤ k) :
    prefixDepth cs k = prefixDepth cs cs.length := by
  unfold prefixDepth
  rw [List.take_of_length_le hk, List.take_of_length_le (le_refl _)]

theorem prefixDepth_step (cs : List Char) (k : Nat) :
    prefixDepth cs k - 1 ≤ prefixDepth cs (k + 1) ∧
    prefixDepth cs (k + 1) ≤ prefixDepth cs k + 1 := by
  by_cases hk : k < cs.length
  · have hc : cs[k]? = some cs[k] := List.getElem?_eq_getElem hk
    rw [prefixDepth_succ cs k cs[k] hc]
    split_ifs <;> omega
  · have h1 := prefixDepth_stable cs k (by omega)
    have h2 := prefixDepth_stable cs (k + 1) (by omega)
    rw [h1, h2]
    omega

theorem lastZeroBefore_succ (cs : List Char) (k : Nat) :
    lastZeroBefore cs (k + 1) =
      if prefixDepth cs k = 0 then some k else lastZeroBefore cs k := by
  unfold lastZeroBefore
  rw [List.range_succ, List.filter_append]
  by_cases h : prefixDepth cs k = 0
  · rw [if_pos h]
    have he : List.filter (fun m => prefixDepth cs m == 0) [k] = [k] := by
      simp [h]
    rw [he, List.getLast?_append]
    simp
  · rw [if_neg h]
    have he : List.filter (fun m => prefixDepth cs m == 0) [k] = [] := by
      simp [h]
    rw [he, List.append_nil]

theorem lastZeroBefore_isSome (cs : List Char) (k : Nat)
    (h : 1 ≤ prefixDepth cs k) : ∃ i, lastZeroBefore cs k = some i := by
  have hk0 : k ≠ 0 := by
    intro h0
    subst h0
    rw [prefixDepth_zero] at h
    omega
  have hmem : 0 ∈ (List.range k).filter (fun m => prefixDepth cs m == 0) := by
    apply List.mem_filter.mpr
    exact ⟨List.mem_range.mpr (by omega), by simp [prefixDepth_zero]⟩
  have hne : (List.range k).filter (fun m => prefixDepth cs m == 0) ≠ [] :=
    List.ne_nil_of_mem hmem
  obtain ⟨i, hi⟩ := Option.isSome_iff_exists.mp (List.getLast?_isSome.mpr hne)
  exact ⟨i, hi⟩

theorem spansUpTo_succ (cs : List Char) (k : Nat) :
    spansUpTo cs (k + 1) = spansUpTo cs k ++ (spanEndingAt cs k).toList := by
  unfold spansUpTo
  rw [List.range_succ, List.filterMap_append]
  cases h : spanEndingAt cs k <;> simp [h]

theorem spanEndingAt_none_of_ge (cs : List Char) (k : Nat)
    (hk : cs.length ≤ k) : spanEndingAt cs k = none := by
  unfold spanEndingAt
  rw [if_neg]
  rintro ⟨h1, h2⟩
  rw [prefixDepth_stable cs k hk] at h1
  rw [prefixDepth_stable cs (k + 1) (by omega)] at h2
  rw [h1] at h2
  exact absurd h2 (by norm_num)

theorem spansUpTo_stable (cs : List Char) (k : Nat) (hk : cs.length ≤ k) :
    spansUpTo cs k = spansUpTo cs cs.length := by
  induction k with
  | zero =>
    have h0 : cs.length = 0 := by omega
    rw [h0]
  | succ n ih =>
    by_cases hn : cs.length ≤ n
    · rw [spansUpTo_succ, spanEndingAt_none_of_ge cs n hn, ih hn]
      simp
    · have : cs.length = n + 1 := by omega
      rw [this]

/-- The scan invariant: running the scanner from position `k` with the state
determined by the prefix of length `k` (depth = tracked prefix depth; start =
the last zero-depth position, live exactly while the depth is positive;
accumulator = the parses of the spans already closed) produces the parses of
all spans. -/
theorem scanGo_inv (cs : List Char) : (rest : List Char) → (k : Nat) →
    rest = cs.drop k →
    scanGo cs rest k (prefixDepth cs k)
      (if 1 ≤ prefixDepth cs k then lastZeroBefore cs k else none)
      ((spansUpTo cs k).filterMap
        (fun p => jsonLoads (sliceCs cs p.1 (p.2 + 1)))) =
    (spansUpTo cs cs.length).filterMap
      (fun p => jsonLoads (sliceCs cs p.1 (p.2 + 1)))
  | [], k, hrest => by
    rw [scanGo]
    have hlen : cs.length ≤ k := by
      have hlen2 := congrArg List.length hrest
      simp only [List.length_nil, List.length_drop] at hlen2
      omega
    rw [spansUpTo_stable cs k hlen]
  | c :: t, k, hrest => by
    have hk : cs[k]? = some c := by
      rw [← List.head?_drop, ← hrest]
      rfl
    obtain ⟨hklen, _⟩ := List.getElem?_eq_some_iff.mp hk
    have ht : t = cs.drop (k + 1) := by
      rw [← List.tail_drop, ← hrest]
      rfl
    rw [scanGo]
    have hpd := prefixDepth_succ cs k c hk
    by_cases hcl : c = lbrace
    · rw [if_pos hcl]
      rw [if_pos hcl] at hpd
      have hfk : spanEndingAt cs k = none := by
        unfold spanEndingAt
        rw [if_neg]
        rintro ⟨h1, h2⟩
        omega
      have hacc : spansUpTo cs (k + 1) = spansUpTo cs k := by
        rw [spansUpTo_succ, hfk]
        simp
      have hstart : (if prefixDepth cs k = 0 then some k
          else (if 1 ≤ prefixDepth cs k then lastZeroBefore cs k else none)) =
          (if 1 ≤ prefixDepth cs (k + 1) then lastZeroBefore cs (k + 1)
           else none) := by
        rw [lastZeroBefore_succ]
        by_cases h0 : prefixDepth cs k = 0
        · rw [if_pos h0, if_pos (by omega), if_pos h0]
        · rw [if_neg h0]
          by_cases h1 : 1 ≤ prefixDepth cs k
          · rw [if_pos h1, if_pos (by omega), if_neg h0]
          · rw [if_neg h1, if_neg (by omega)]
      rw [hstart, show prefixDepth cs k + 1 = prefixDepth cs (k + 1) by omega,
        ← hacc]
      exact scanGo_inv cs t (k + 1) ht
    · rw [if_neg hcl]
      rw [if_neg hcl] at hpd
      by_cases hcr : c = rbrace
      · rw [if_pos hcr]
        rw [if_pos hcr] at hpd
        by_cases hone : prefixDepth cs k = 1
        · rw [if_pos (by omega : prefixDepth cs k - 1 = 0)]
          obtain ⟨i, hi⟩ := lastZeroBefore_isSome cs k (by omega)
          rw [if_pos (by omega : (1 : Int) ≤ prefixDepth cs k), hi]
          simp only [Option.elim]
          have hfk : spanEndingAt cs k = some (i, k) := by
            unfold spanEndingAt
            rw [if_pos ⟨hone, by omega⟩, hi]
            rfl
          have hacc : spansUpTo cs (k + 1) = spansUpTo cs k ++ [(i, k)] := by
            rw [spansUpTo_succ, hfk]
            rfl
          have hD : prefixDepth cs k - 1 = prefixDepth cs (k + 1) := by omega
          have hstart : (none : Option Nat) =
              (if 1 ≤ prefixDepth cs (k + 1) then lastZeroBefore cs (k + 1)
               else none) := by
            rw [if_neg (by omega)]
          cases hj : jsonLoads (sliceCs cs i (k + 1)) with
          | none =>
            simp only [Option.elim]
            have haccg : (spansUpTo cs k).filterMap
                (fun p => jsonLoads (sliceCs cs p.1 (p.2 + 1))) =
                (spansUpTo cs (k + 1)).filterMap
                  (fun p => jsonLoads (sliceCs cs p.1 (p.2 + 1))) := by
              rw [hacc, List.filterMap_append]
              simp [hj]
            rw [hD, hstart, haccg]
            exact scanGo_inv cs t (k + 1) ht
          | some o =>
            simp only [Option.elim]
            have haccg : (spansUpTo cs k).filterMap
                (fun p => jsonLoads (sliceCs cs p.1 (p.2 + 1))) ++ [o] =
                (spansUpTo cs (k + 1)).filterMap
                  (fun p => jsonLoads (sliceCs cs p.1 (p.2 + 1))) := by
              rw [hacc, List.filterMap_append]
              simp [hj]
            rw [hD, hstart, haccg]
            exact scanGo_inv cs t (k + 1) ht
        · rw [if_neg (by omega : ¬ prefixDepth cs k - 1 = 0)]
          have hfk : spanEndingAt cs k = none := by
            unfold spanEndingAt
            rw [if_neg]
            rintro ⟨h1, h2⟩
            exact hone h1
          have hacc : spansUpTo cs (k + 1) = spansUpTo cs k := by
            rw [spansUpTo_succ, hfk]
            simp
          have hD : prefixDepth cs k - 1 = prefixDepth cs (k + 1) := by omega
          have hstart : (if 1 ≤ prefixDepth cs k then lastZeroBefore cs k
              else none) =
              (if 1 ≤ prefixDepth cs (k + 1) then lastZeroBefore cs (k + 1)
               else none) := by
            rw [lastZeroBefore_succ]
            by_cases h1 : 1 ≤ prefixDepth cs k
            · rw [if_pos h1, if_pos (by omega),
                if_neg (by omega : ¬ prefixDepth cs k = 0)]
            · rw [if_neg h1, if_neg (by omega)]
          rw [hD, hstart, ← hacc]
          exact scanGo_inv cs t (k + 1) ht
      · rw [if_neg hcr]
        rw [if_neg hcr] at hpd
        have hpd0 : prefixDepth cs (k + 1) = prefixDepth cs k := by omega
        have hfk : spanEndingAt cs k = none := by
          unfold spanEndingAt
          rw [if_neg]
          rintro ⟨h1, h2⟩
          omega
        have hacc : spansUpTo cs (k + 1) = spansUpTo cs k := by
          rw [spansUpTo_succ, hfk]
          simp
        have hstart : (if 1 ≤ prefixDepth cs k then lastZeroBefore cs k
            else none) =
            (if 1 ≤ prefixDepth cs (k + 1) then lastZeroBefore cs (k + 1)
             else none) := by
          rw [lastZeroBefore_succ]
          by_cases h1 : 1 ≤ prefixDepth cs k
          · rw [if_pos h1, if_pos (by omega),
              if_neg (by omega : ¬ prefixDepth cs k = 0)]
          · rw [if_neg h1, if_neg (by omega)]
        rw [hstart, show prefixDepth cs k = prefixDepth cs (k + 1) by omega,
          ← hacc]
        exact scanGo_inv cs t (k + 1) ht

/-- Discrete intermediate value property of the depth walk: climbing from a
negative depth to a non-negative one passes through zero (steps are at most
one in absolute value). -/
theorem prefixDepth_crossing (cs : List Char) : (n : Nat) → (a : Nat) →
    prefixDepth cs a < 0 → 0 ≤ prefixDepth cs (a + n) →
    ∃ m, a < m ∧ m ≤ a + n ∧ prefixDepth cs m = 0
  | 0, a, h1, h2 => by
    rw [Nat.add_zero] at h2
    exact absurd h2 (by omega)
  | n + 1, a, h1, h2 => by
    have hstep := prefixDepth_step cs a
    by_cases h0 : prefixDepth cs (a + 1) = 0
    · exact ⟨a + 1, by omega, by omega, h0⟩
    · have hneg : prefixDepth cs (a + 1) < 0 := by omega
      have h2b : 0 ≤ prefixDepth cs ((a + 1) + n) := by
        rw [show (a + 1) + n = a + (n + 1) by omega]
        exact h2
      obtain ⟨m, hm1, hm2, hm3⟩ := prefixDepth_crossing cs n (a + 1) hneg h2b
      exact ⟨m, by omega, by omega, hm3⟩

/-- The last element of a strictly increasing list bounds all elements. -/
theorem getLast?_max (l : List Nat) (hp : l.Pairwise (· < ·)) (i : Nat)
    (hi : l.getLast? = some i) : ∀ m ∈ l, m ≤ i := by
  obtain ⟨ys, hys⟩ := List.getLast?_eq_some_iff.mp hi
  subst hys
  intro m hm
  rcases List.mem_append.mp hm with hm1 | hm2
  · have hsplit := List.pairwise_append.mp hp
    exact le_of_lt (hsplit.2.2 m hm1 i (List.mem_singleton.mpr rfl))
  · rw [List.mem_singleton.mp hm2]

/-- Conversely, a member that bounds all elements of a strictly increasing
list is its last element. -/
theorem getLast?_of_max : (l : List Nat) → l.Pairwise (· < ·) → (i : Nat) →
    i ∈ l → (∀ m ∈ l, m ≤ i) → l.getLast? = some i
  | [], _, i, hmem, _ => absurd hmem (by simp)
  | [x], _, i, hmem, _ => by
    rw [List.mem_singleton.mp hmem]
    rfl
  | x :: y :: t2, hp, i, hmem, hmax => by
    rw [List.getLast?_cons_cons]
    have hxy : x < y := (List.pairwise_cons.mp hp).1 y (by simp)
    have hitail : i ∈ y :: t2 := by
      rcases List.mem_cons.mp hmem with hh | hh
      · exfalso
        have hy := hmax y (by simp)
        omega
      · exact hh
    exact getLast?_of_max (y :: t2) (List.Pairwise.of_cons hp) i hitail
      (fun m hm => hmax m (List.mem_cons_of_mem x hm))

/-- What a successful `lastZeroBefore` lookup means. -/
theorem lastZeroBefore_spec (cs : List Char) (j i : Nat)
    (h : lastZeroBefore cs j = some i) :
    i < j ∧ prefixDepth cs i = 0 ∧
      ∀ m, i < m → m < j → prefixDepth cs m ≠ 0 := by
  unfold lastZeroBefore at h
  have hpair : ((List.range j).filter
      (fun m => prefixDepth cs m == 0)).Pairwise (· < ·) :=
    (List.pairwise_lt_range j).filter _
  have hmem : i ∈ (List.range j).filter (fun m => prefixDepth cs m == 0) := by
    obtain ⟨ys, hys⟩ := List.getLast?_eq_some_iff.mp h
    rw [hys]
    exact List.mem_append.mpr (Or.inr (List.mem_singleton.mpr rfl))
  obtain ⟨hir, hiz⟩ := List.mem_filter.mp hmem
  refine ⟨List.mem_range.mp hir, by simpa using hiz, ?_⟩
  intro m him hmj hz
  have hm : m ∈ (List.range j).filter (fun m => prefixDepth cs m == 0) :=
    List.mem_filter.mpr ⟨List.mem_range.mpr hmj, by simpa using hz⟩
  have := getLast?_max _ hpair i h m hm
  omega

/-- The declarative reading of `specSpans`: `(i, j)` is a span exactly when
`i` opens a brace at tracked depth 0, `j` closes back to depth 0, and the
depth stays positive strictly inside — a maximal balanced depth-0 span. -/
theorem specSpans_iff (cs : List Char) (i j : Nat) :
    (i, j) ∈ specSpans cs ↔
      (j < cs.length ∧ i < j ∧ cs[i]? = some lbrace ∧ cs[j]? = some rbrace ∧
       prefixDepth cs i = 0 ∧ prefixDepth cs (j + 1) = 0 ∧
       ∀ m, i < m → m ≤ j → 1 ≤ prefixDepth cs m) := by
  constructor
  · intro hmem
    obtain ⟨j2, hj2r, hj2⟩ := List.mem_filterMap.mp hmem
    unfold spanEndingAt at hj2
    by_cases hcond : prefixDepth cs j2 = 1 ∧ prefixDepth cs (j2 + 1) = 0
    case neg =>
      rw [if_neg hcond] at hj2
      exact absurd hj2 (by simp)
    rw [if_pos hcond] at hj2
    obtain ⟨i2, hi2, hpe⟩ := Option.map_eq_some'.mp hj2
    have hii : i2 = i := congrArg Prod.fst hpe
    have hjj : j2 = j := congrArg Prod.snd hpe
    rw [hii, hjj] at hi2
    rw [hjj] at hcond hj2r
    obtain ⟨hij, hiz, hnozero⟩ := lastZeroBefore_spec cs j i hi2
    have hjlen : j < cs.length := List.mem_range.mp hj2r
    have hinterior : ∀ m, i < m → m ≤ j → 1 ≤ prefixDepth cs m := by
      intro m him hmj
      by_contra hcon
      by_cases hmj2 : m = j
      · subst hmj2
        omega
      · have hm0 : prefixDepth cs m ≠ 0 := hnozero m him (by omega)
        have hneg : prefixDepth cs m < 0 := by omega
        obtain ⟨m2, hc1, hc2, hc3⟩ := prefixDepth_crossing cs (j - m) m hneg
          (by rw [show m + (j - m) = j by omega]; omega)
        have hm2j : m2 ≠ j := by
          intro he
          rw [he] at hc3
          omega
        exact hnozero m2 (by omega) (by omega) hc3
    have hchari : cs[i]? = some lbrace := by
      have hii1 : 1 ≤ prefixDepth cs (i + 1) :=
        hinterior (i + 1) (by omega) (by omega)
      have hilen : i < cs.length := by omega
      have hci : cs[i]? = some cs[i] := List.getElem?_eq_getElem hilen
      have hstep := prefixDepth_succ cs i cs[i] hci
      have hcl : cs[i] = lbrace := by
        by_contra hne
        rw [if_neg hne] at hstep
        by_cases h2 : cs[i] = rbrace
        · rw [if_pos h2] at hstep
          omega
        · rw [if_neg h2] at hstep
          omega
      rw [hci, hcl]
    have hcharj : cs[j]? = some rbrace := by
      have hcj2 : cs[j]? = some cs[j] := List.getElem?_eq_getElem hjlen
      have hstep := prefixDepth_succ cs j cs[j] hcj2
      have hcr : cs[j] = rbrace := by
        by_contra hne
        by_cases h2 : cs[j] = lbrace
        · rw [if_pos h2] at hstep
          omega
        · rw [if_neg h2, if_neg hne] at hstep
          omega
      rw [hcj2, hcr]
    exact ⟨hjlen, hij, hchari, hcharj, hiz, hcond.2, hinterior⟩
  · rintro ⟨hjlen, hij, hci, hcj, hpi, hpj1, hint⟩
    have hpdj : prefixDepth cs j = 1 := by
      have hstep := prefixDepth_succ cs j rbrace hcj
      rw [if_neg (by decide), if_pos rfl] at hstep
      omega
    apply List.mem_filterMap.mpr
    refine ⟨j, List.mem_range.mpr hjlen, ?_⟩
    unfold spanEndingAt
    rw [if_pos ⟨hpdj, hpj1⟩]
    have hlzb : lastZeroBefore cs j = some i := by
      unfold lastZeroBefore
      apply getLast?_of_max _ ((List.pairwise_lt_range j).filter _)
      · exact List.mem_filter.mpr
          ⟨List.mem_range.mpr hij, by simpa using hpi⟩
      · intro m hm
        obtain ⟨hm1, hm2⟩ := List.mem_filter.mp hm
        by_contra hcon
        have hmlt : m < j := List.mem_range.mp hm1
        have hge : 1 ≤ prefixDepth cs m := hint m (by omega) (by omega)
        simp only [beq_iff_eq] at hm2
        omega
    rw [hlzb]
    rfl

/-- C7: the balanced-brace scanner returns exactly the successfully parsed
maximal balanced depth-0 spans, left to right (spans are enumerated by their
closing position, which increases left to right and agrees with the order of
their opening positions since spans are disjoint); the second part gives the
declarative reading of the spans, with no reference to any `root` key. -/
theorem c7_theorem (cs : List Char) :
    extract_json_objects cs =
      (specSpans cs).filterMap
        (fun p => jsonLoads (sliceCs cs p.1 (p.2 + 1))) ∧
    ∀ i j, (i, j) ∈ specSpans cs ↔
      (j < cs.length ∧ i < j ∧ cs[i]? = some lbrace ∧ cs[j]? = some rbrace ∧
       prefixDepth cs i = 0 ∧ prefixDepth cs (j + 1) = 0 ∧
       ∀ m, i < m → m ≤ j → 1 ≤ prefixDepth cs m) := by
  constructor
  · exact scanGo_inv cs cs 0 (List.drop_zero cs).symm
  · intro i j
    exact specSpans_iff cs i j

/-- Witness: the characterisation evaluated on the end-to-end example blob,
whose single span is the `root` fragment between positions 6 and 47. -/
theorem c7_witness :
    extract_json_objects exampleRaw =
      (specSpans exampleRaw).filterMap
        (fun p => jsonLoads (sliceCs exampleRaw p.1 (p.2 + 1))) ∧
    (6, 47) ∈ specSpans exampleRaw ∧
    exampleRaw[6]? = some lbrace ∧ exampleRaw[47]? = some rbrace := by
  have h1 := (c7_theorem exampleRaw).1
  have h2 : (6, 47) ∈ specSpans exampleRaw := by decide
  have h3 := ((c7_theorem exampleRaw).2 6 47).mp h2
  exact ⟨h1, h2, h3.2.2.1, h3.2.2.2.1⟩
